import Mathlib

/-!
Verification development for the CodePack core (Rust, `src-tauri/src`):
a shallow embedding of the content packer (`packer.rs`), the scanner
(`scanner.rs`), the plugin matcher (`plugins.rs`), the metadata extractor
(`metadata.rs`) and the scan commands (`commands.rs`), together with
theorems about the embedded definitions.

Modelling conventions:
* Rust `u32`/`u64`/`usize` quantities are embedded as `Nat`; the counters
  involved (file counts capped at 5000, byte totals) never reach the
  wrap-around range, so no explicit modular arithmetic is introduced.
* The filesystem is an explicit record of query functions (`FS`): `stat`
  embeds `fs::metadata(..).map(|m| m.len())`, `readToString` embeds
  `fs::read_to_string` (`none` = I/O error or invalid UTF-8), and
  `readJson` / `readToml` embed `read_to_string` composed with the external
  serde_json / toml parsers.  Parsed JSON / TOML documents keep their
  key/value pairs as ordered association lists; per the specification the
  map types preserve manifest (insertion) order.
* Paths are strings using `/` as separator; `Path::strip_prefix` is
  embedded component-wise and `Path::join` as string concatenation with a
  `/` separator.
* Rust `f64` token counts: the external `tiktoken` tokenizer is embedded
  as an abstract parameter `tok : String → Nat`, and the `{:.1}` float
  formatting of `format_tokens` is embedded with `Nat` arithmetic
  (truncation of the single decimal instead of float rounding; no claim
  depends on the printed digits).
* All string manipulation is implemented over `List Char` with structural
  recursion so that concrete runs of the embedding reduce definitionally.
-/

/-! ### Character and string helpers -/

/-- Decimal digit character (for embedding Rust's integer `Display`). -/
def digitChar (n : Nat) : Char := Char.ofNat (48 + n % 10)

/-- Fuel-driven accumulator for decimal printing (structural recursion). -/
def natReprAux : Nat → Nat → List Char → List Char
  | 0, _, acc => acc
  | fuel + 1, n, acc =>
    if n < 10 then digitChar n :: acc
    else natReprAux fuel (n / 10) (digitChar (n % 10) :: acc)

/-- Decimal rendering of a `Nat`, embedding Rust's `format!("{}", n)`. -/
def natRepr (n : Nat) : String := String.mk (natReprAux (n + 1) n [])

/-- Split a character list at every occurrence of `c` (Rust `str::split(c)`:
`n` separators produce `n+1` pieces, empty pieces included). -/
def splitChar (c : Char) : List Char → List (List Char)
  | [] => [[]]
  | d :: rest =>
    if d == c then [] :: splitChar c rest
    else
      match splitChar c rest with
      | h :: t => (d :: h) :: t
      | [] => [[d]]

/-- Split a string at every occurrence of character `c`. -/
def splitStr (c : Char) (s : String) : List String :=
  (splitChar c s.data).map String.mk

/-- Concatenate a list of strings (a sequence of `push_str` calls). -/
def concatAll : List String → String
  | [] => ""
  | s :: rest => s ++ concatAll rest

/-- Join strings with a separator (Rust `join`). -/
def joinWith (sep : String) : List String → String
  | [] => ""
  | [s] => s
  | s :: rest => s ++ sep ++ joinWith sep rest

/-- Replace every backslash by a forward slash
(Rust `.replace('\\', "/")` : single-character pattern). -/
def normSlash (s : String) : String :=
  String.mk (s.data.map (fun c => if c == '\\' then '/' else c))

/-- Replace a single character by a replacement string (Rust
`str::replace` with a `char` pattern). -/
def replaceChar (c : Char) (rep : String) (s : String) : String :=
  String.mk (s.data.flatMap (fun d => if d == c then rep.data else [d]))

/-- `List.isPrefixOf`-based substring occurrence test
(Rust `str::contains`). -/
def containsChars (p : List Char) : List Char → Bool
  | [] => p.isEmpty
  | c :: rest => p.isPrefixOf (c :: rest) || containsChars p rest

/-- String-level substring test. -/
def containsStr (p s : String) : Bool := containsChars p.data s.data

/-- Number of positions at which `p` occurs in a character list. -/
def countSub (p : List Char) : List Char → Nat
  | [] => 0
  | c :: rest => (if p.isPrefixOf (c :: rest) then 1 else 0) + countSub p rest

/-- Number of occurrence positions of `p` inside `s`. -/
def countS (p s : String) : Nat := countSub p.data s.data

/-- ASCII lowercase of one character (Rust `eq_ignore_ascii_case` /
`to_lowercase`; names compared by the scanner are ASCII in practice). -/
def asciiLowerChar (c : Char) : Char :=
  if 65 ≤ c.toNat && c.toNat ≤ 90 then Char.ofNat (c.toNat + 32) else c

/-- ASCII lowercase of a string. -/
def asciiLower (s : String) : String := String.mk (s.data.map asciiLowerChar)

/-- Rust `str::eq_ignore_ascii_case`. -/
def eqIgnoreAsciiCase (a b : String) : Bool := asciiLower a == asciiLower b

/-- Rust `str::starts_with` for string patterns. -/
def strStarts (pre s : String) : Bool := pre.data.isPrefixOf s.data

/-- Rust `str::ends_with` for string patterns. -/
def strEnds (suf s : String) : Bool := suf.data.reverse.isPrefixOf s.data.reverse

/-- Rust `str::ends_with('\n')` specialisation used by the packer. -/
def endsNewline (s : String) : Bool := strEnds "\n" s

/-- ASCII whitespace (the characters relevant to the parsed manifests). -/
def isWsChar (c : Char) : Bool := c == ' ' || c == '\t' || c == '\r' || c == '\n'

/-- Rust `str::trim` (ASCII whitespace; the manifests parsed are ASCII). -/
def trimAscii (s : String) : String :=
  String.mk (((s.data.dropWhile isWsChar).reverse.dropWhile isWsChar).reverse)

/-- Rust `str::trim_matches(c)`: strip every leading and trailing `c`. -/
def trimMatches (c : Char) (s : String) : String :=
  String.mk (((s.data.dropWhile (· == c)).reverse.dropWhile (· == c)).reverse)

/-- Rust `str::split_whitespace`: maximal non-whitespace runs. -/
def splitWs (s : String) : List String :=
  ((s.data.splitOnP isWsChar).filter (· ≠ [])).map String.mk

/-- Rust `str::strip_prefix(pre)` for strings. -/
def stripStrPre (pre s : String) : Option String :=
  if pre.data.isPrefixOf s.data then some (String.mk (s.data.drop pre.data.length)) else none

/-- First position of substring `p` in `l` (Rust `str::find`). -/
def findSub (p : List Char) : List Char → Option Nat
  | [] => if p.isEmpty then some 0 else none
  | c :: rest =>
    if p.isPrefixOf (c :: rest) then some 0
    else (findSub p rest).map (· + 1)

/-- Rust's `lines()` iterator: split on `'\n'`, drop one trailing `'\r'`
per line, and do not yield a final empty line after a terminating
newline. -/
def linesOf (s : String) : List String :=
  let parts := splitChar '\n' s.data
  let parts := match parts.getLast? with
    | some [] => parts.dropLast
    | _ => parts
  parts.map (fun l => String.mk (if l.getLast? == some '\r' then l.dropLast else l))

/-- Rust `str::splitn(2, c)`. -/
def splitN2 (c : Char) (s : String) : List String :=
  match findSub [c] s.data with
  | some i => [String.mk (s.data.take i), String.mk (s.data.drop (i + 1))]
  | none => [s]

/-! ### Path helpers -/

/-- Path components of a `/`-separated path string (embeds
`Path::components` for the paths this application passes around). -/
def pathComps (p : String) : List String := splitStr '/' p

/-- `Path::file_name` as used by the scanner/packer: the last `/`-separated
component. -/
def lastComp (p : String) : String := (pathComps p).getLastD ""

/-- `Path::extension()`: the part of the final component after its last
dot; `none` when there is no dot or the name is a bare dotfile. -/
def extOf (p : String) : Option String :=
  let segs := splitStr '.' (lastComp p)
  match segs with
  | [] => none
  | [_] => none
  | "" :: [_] => none
  | _ => segs.getLast?

/-- `Path::join` for the relative names this application joins onto
root directories. -/
def joinPath (root f : String) : String := root ++ "/" ++ f

/-- Component-wise `Path::strip_prefix(root)` followed by
`to_string_lossy`: `some` of the remainder joined by `/` when the
components of `root` are a prefix, `none` otherwise. -/
def stripRoot (root p : String) : Option String :=
  let rc := pathComps root
  let pc := pathComps p
  if rc.isPrefixOf pc then some (joinWith "/" (pc.drop rc.length)) else none

/-! ### Data model (`types.rs`) -/

/-- `types.rs` `ExportFormat`. -/
inductive ExportFormat where
  | Plain
  | Markdown
  | Xml
deriving DecidableEq, Repr

/-- `types.rs` `SkippedFile`. -/
structure SkippedFile where
  path : String
  reason : String
  size_bytes : Nat
deriving DecidableEq, Repr

/-- `types.rs` `ProjectMetadata`. -/
structure ProjectMetadata where
  name : String
  project_type : String
  version : Option String
  description : Option String
  dependencies : List String
  dev_dependencies : List String
  entry_point : Option String
  runtime : List String
  requirements : List String
deriving DecidableEq, Repr

/-- `types.rs` `PackResult` (`estimated_tokens` is the tokenizer's count,
a non-negative integer stored by the source in an `f64`). -/
structure PackResult where
  content : String
  file_count : Nat
  total_bytes : Nat
  estimated_tokens : Nat
  skipped_files : List SkippedFile
deriving DecidableEq, Repr

/-- `plugins.rs` `PluginDef`. -/
structure PluginDef where
  name : String
  version : String
  detect_files : List String
  detect_dirs : List String
  exclude_dirs : List String
  source_extensions : List String
deriving DecidableEq, Repr

/-- Parsed JSON document (serde_json `Value`); objects keep their fields
as an ordered association list.  Modelled from the spec: the `dependencies`
map preserves manifest order ("insertion order = manifest order"); the
crate feature selection fixing the map type is outside `src/`. -/
inductive JsonValue where
  | str (s : String)
  | num (n : Int)
  | bool (b : Bool)
  | null
  | arr (xs : List JsonValue)
  | obj (kvs : List (String × JsonValue))

/-- Parsed TOML document (toml `Value`); tables keep their entries as an
ordered association list.  Modelled from the spec: dependency tables
preserve manifest order; the crate feature selection fixing the map type
is outside `src/`. -/
inductive TomlValue where
  | str (s : String)
  | int (n : Int)
  | bool (b : Bool)
  | arr (xs : List TomlValue)
  | table (kvs : List (String × TomlValue))

/-- First value bound to `k` in an ordered association list. -/
def alistGet {α : Type} (kvs : List (String × α)) (k : String) : Option α :=
  match kvs with
  | [] => none
  | (k', v) :: rest => if k' == k then some v else alistGet rest k

/-- serde_json `Value::get` on an object. -/
def JsonValue.get : JsonValue → String → Option JsonValue
  | .obj kvs, k => alistGet kvs k
  | _, _ => none

/-- serde_json `Value::as_str`. -/
def JsonValue.as_str : JsonValue → Option String
  | .str s => some s
  | _ => none

/-- serde_json `Value::as_object` (the ordered field list). -/
def JsonValue.as_object : JsonValue → Option (List (String × JsonValue))
  | .obj kvs => some kvs
  | _ => none

/-- toml `Value::get` on a table. -/
def TomlValue.get : TomlValue → String → Option TomlValue
  | .table kvs, k => alistGet kvs k
  | _, _ => none

/-- toml `Value::as_str`. -/
def TomlValue.as_str : TomlValue → Option String
  | .str s => some s
  | _ => none

/-- toml `Value::as_table` (the ordered entry list). -/
def TomlValue.as_table : TomlValue → Option (List (String × TomlValue))
  | .table kvs => some kvs
  | _ => none

/-- toml `Value::as_array`. -/
def TomlValue.as_array : TomlValue → Option (List TomlValue)
  | .arr xs => some xs
  | _ => none

/-- The filesystem as seen through the standard-library calls the core
makes.  `stat` embeds `fs::metadata(..).map(|m| m.len())`; `readToString`
embeds `fs::read_to_string` (`none` for I/O errors and non-UTF-8 data);
`readJson` / `readToml` embed `read_to_string` composed with the external
serde parsers; `pathExists` / `isDir` embed `Path::exists` /
`Path::is_dir`; `listDir` embeds `fs::read_dir` file-name iteration
(empty on error). -/
structure FS where
  pathExists : String → Bool
  isDir : String → Bool
  listDir : String → List String
  stat : String → Option Nat
  readToString : String → Option String
  readJson : String → Option JsonValue
  readToml : String → Option TomlValue

/-! ### Packer constants and small helpers (`packer.rs`) -/

/-- `packer.rs` `DEFAULT_MAX_FILE_BYTES` (1 MiB). -/
def DEFAULT_MAX_FILE_BYTES : Nat := 1048576

/-- `packer.rs` `MAX_FILE_COUNT`. -/
def MAX_FILE_COUNT : Nat := 5000

/-- Rust `String::len` of the decoded file text: its UTF-8 byte length. -/
def utf8Len (s : String) : Nat := s.data.foldl (fun a c => a + c.utf8Size) 0

/-- `packer.rs` `comment_delimiter`: comment marker by (lowercased)
extension of the relative path. -/
def comment_delimiter (relative_path : String) : String :=
  let ext := asciiLower ((extOf relative_path).getD "")
  if ext == "html" || ext == "xml" || ext == "svg" || ext == "vue" || ext == "svelte" then "<!--"
  else if ext == "css" || ext == "scss" || ext == "sass" || ext == "less" then "/*"
  else if ext == "py" || ext == "rb" || ext == "sh" || ext == "bash" || ext == "zsh"
       || ext == "fish" || ext == "yaml" || ext == "yml" || ext == "toml" || ext == "ini"
       || ext == "cfg" || ext == "conf" || ext == "r" || ext == "jl" || ext == "pl" then "#"
  else if ext == "sql" || ext == "lua" || ext == "hs" then "--"
  else if ext == "bat" then "REM"
  else "//"

/-- `packer.rs` `xml_escape`: sequential single-character replacements of
`&`, `<`, `>`, `"`. -/
def xml_escape (s : String) : String :=
  replaceChar '"' "&quot;" (replaceChar '>' "&gt;" (replaceChar '<' "&lt;" (replaceChar '&' "&amp;" s)))

/-- `packer.rs` `format_tokens`.  The source formats an `f64` with
`{:.1}`; here the count is a `Nat` and the single decimal is obtained by
integer division (truncation instead of float rounding — no claim
concerns the printed digits). -/
def format_tokens (tokens : Nat) : String :=
  if 1000000 ≤ tokens then
    natRepr (tokens / 100000 / 10) ++ "." ++ natRepr (tokens / 100000 % 10) ++ "M"
  else if 1000 ≤ tokens then
    natRepr (tokens / 100 / 10) ++ "." ++ natRepr (tokens / 100 % 10) ++ "K"
  else natRepr tokens

/-! ### Metadata extraction (`metadata.rs`) -/

/-- `metadata.rs` `extract_xml_tag`: first textual occurrence of
`<tag>…</tag>`, trimmed. -/
def extract_xml_tag (text tag : String) : Option String :=
  let opTag := "<" ++ tag ++ ">"
  let clTag := "</" ++ tag ++ ">"
  match findSub opTag.data text.data with
  | some start =>
    let after := start + opTag.data.length
    match findSub clTag.data (text.data.drop after) with
    | some e => some (trimAscii (String.mk ((text.data.drop after).take e)))
    | none => none
  | none => none

/-- The `.nvmrc` / `.node-version` fallback loop in
`extract_package_json`: first file that reads with non-empty trimmed
content wins. -/
def nvmrcRuntime (fs : FS) (root : String) : Option String :=
  match fs.readToString (joinPath root ".nvmrc") with
  | some ver =>
    if trimAscii ver ≠ "" then some (trimAscii ver)
    else
      match fs.readToString (joinPath root ".node-version") with
      | some ver2 => if trimAscii ver2 ≠ "" then some (trimAscii ver2) else none
      | none => none
  | none =>
    match fs.readToString (joinPath root ".node-version") with
    | some ver2 => if trimAscii ver2 ≠ "" then some (trimAscii ver2) else none
    | none => none

/-- `extract_package_json`: the `name` statement. -/
def pkgNameStep (pkg : JsonValue) (meta : ProjectMetadata) : ProjectMetadata :=
  match (pkg.get "name").bind JsonValue.as_str with
  | some name => { meta with name := name }
  | none => meta

/-- `extract_package_json`: the `version` statement. -/
def pkgVersionStep (pkg : JsonValue) (meta : ProjectMetadata) : ProjectMetadata :=
  match (pkg.get "version").bind JsonValue.as_str with
  | some ver => { meta with version := some ver }
  | none => meta

/-- `extract_package_json`: the `description` statement. -/
def pkgDescriptionStep (pkg : JsonValue) (meta : ProjectMetadata) : ProjectMetadata :=
  match (pkg.get "description").bind JsonValue.as_str with
  | some desc => if desc ≠ "" then { meta with description := some desc } else meta
  | none => meta

/-- `extract_package_json`: the `main` statement. -/
def pkgMainStep (pkg : JsonValue) (meta : ProjectMetadata) : ProjectMetadata :=
  match (pkg.get "main").bind JsonValue.as_str with
  | some main => { meta with entry_point := some main }
  | none => meta

/-- `extract_package_json`: the `engines` loop. -/
def pkgEnginesStep (pkg : JsonValue) (meta : ProjectMetadata) : ProjectMetadata :=
  match (pkg.get "engines").bind JsonValue.as_object with
  | some engines =>
    { meta with runtime := meta.runtime ++
        engines.filterMap (fun (kv : String × JsonValue) =>
          kv.2.as_str.map (fun v => kv.1 ++ " " ++ v)) }
  | none => meta

/-- `extract_package_json`: the `dependencies` statement (keys in
manifest order plus `name@version` requirement strings). -/
def pkgDepsStep (pkg : JsonValue) (meta : ProjectMetadata) : ProjectMetadata :=
  match (pkg.get "dependencies").bind JsonValue.as_object with
  | some deps =>
    { meta with dependencies := deps.map Prod.fst,
                requirements := meta.requirements ++
                  deps.filterMap (fun (kv : String × JsonValue) =>
                    kv.2.as_str.map (fun v => kv.1 ++ "@" ++ v)) }
  | none => meta

/-- `extract_package_json`: the `devDependencies` statement. -/
def pkgDevDepsStep (pkg : JsonValue) (meta : ProjectMetadata) : ProjectMetadata :=
  match (pkg.get "devDependencies").bind JsonValue.as_object with
  | some deps => { meta with dev_dependencies := deps.map Prod.fst }
  | none => meta

/-- `extract_package_json`: the `.nvmrc` / `.node-version` fallback. -/
def pkgNvmStep (fs : FS) (root : String) (meta : ProjectMetadata) : ProjectMetadata :=
  if meta.runtime.isEmpty then
    match nvmrcRuntime fs root with
    | some v => { meta with runtime := meta.runtime ++ ["node " ++ v] }
    | none => meta
  else meta

/-- `extract_package_json`: the `tsconfig.json` probe. -/
def pkgTsStep (fs : FS) (root : String) (meta : ProjectMetadata) : ProjectMetadata :=
  match fs.readJson (joinPath root "tsconfig.json") with
  | some ts =>
    match ((ts.get "compilerOptions").bind (fun c => c.get "target")).bind JsonValue.as_str with
    | some target => { meta with runtime := meta.runtime ++ ["ts target: " ++ target] }
    | none => meta
  | none => meta

/-- `metadata.rs` `extract_package_json`: the statements applied in
source order. -/
def extract_package_json (fs : FS) (root : String) (meta0 : ProjectMetadata) :
    ProjectMetadata :=
  match fs.readJson (joinPath root "package.json") with
  | none => meta0
  | some pkg =>
    pkgTsStep fs root (pkgNvmStep fs root (pkgDevDepsStep pkg (pkgDepsStep pkg
      (pkgEnginesStep pkg (pkgMainStep pkg (pkgDescriptionStep pkg
        (pkgVersionStep pkg (pkgNameStep pkg meta0))))))))

/-- `extract_cargo_toml`: the `[package]` table block. -/
def cargoPackageStep (doc : TomlValue) (meta0 : ProjectMetadata) : ProjectMetadata :=
  match (doc.get "package").bind TomlValue.as_table with
  | some pkg =>
    let meta := match (alistGet pkg "name").bind TomlValue.as_str with
      | some name => { meta0 with name := name }
      | none => meta0
    let meta := match (alistGet pkg "version").bind TomlValue.as_str with
      | some ver => { meta with version := some ver }
      | none => meta
    let meta := match (alistGet pkg "description").bind TomlValue.as_str with
      | some desc => if desc ≠ "" then { meta with description := some desc } else meta
      | none => meta
    let meta := match (alistGet pkg "edition").bind TomlValue.as_str with
      | some edition => { meta with runtime := meta.runtime ++ ["rust edition " ++ edition] }
      | none => meta
    match (alistGet pkg "rust-version").bind TomlValue.as_str with
    | some msrv => { meta with runtime := meta.runtime ++ ["rust >=" ++ msrv] }
    | none => meta
  | none => meta0

/-- `extract_cargo_toml`: the `[dependencies]` table (keys in manifest
order; each value's version is the bare string, a table's `version`
entry, or `*`). -/
def cargoDepsStep (doc : TomlValue) (meta : ProjectMetadata) : ProjectMetadata :=
  match (doc.get "dependencies").bind TomlValue.as_table with
  | some deps =>
    { meta with dependencies := deps.map Prod.fst,
                requirements := meta.requirements ++ deps.map (fun (kv : String × TomlValue) =>
                  let verStr := match kv.2.as_str with
                    | some v => v
                    | none =>
                      match kv.2.as_table with
                      | some t => ((alistGet t "version").bind TomlValue.as_str).getD "*"
                      | none => "*"
                  kv.1 ++ "@" ++ verStr) }
  | none => meta

/-- `extract_cargo_toml`: the `[dev-dependencies]` table. -/
def cargoDevDepsStep (doc : TomlValue) (meta : ProjectMetadata) : ProjectMetadata :=
  match (doc.get "dev-dependencies").bind TomlValue.as_table with
  | some deps => { meta with dev_dependencies := deps.map Prod.fst }
  | none => meta

/-- `metadata.rs` `extract_cargo_toml`: the blocks applied in source
order. -/
def extract_cargo_toml (fs : FS) (root : String) (meta0 : ProjectMetadata) :
    ProjectMetadata :=
  match fs.readToml (joinPath root "Cargo.toml") with
  | none => meta0
  | some doc => cargoDevDepsStep doc (cargoDepsStep doc (cargoPackageStep doc meta0))

/-- Bare package name from a Python requirement string: prefix before the
first of `> < = ~ ! ; [`, trimmed. -/
def pyDepName (dep : String) : String :=
  trimAscii (String.mk (dep.data.takeWhile (fun c =>
    !(c == '>' || c == '<' || c == '=' || c == '~' || c == '!' || c == ';' || c == '['))))

/-- `metadata.rs` `extract_python_meta`. -/
def extract_python_meta (fs : FS) (root : String) (meta0 : ProjectMetadata) : ProjectMetadata :=
  let meta := match fs.readToml (joinPath root "pyproject.toml") with
    | some doc =>
      match (doc.get "project").bind TomlValue.as_table with
      | some project =>
        let meta := match (alistGet project "name").bind TomlValue.as_str with
          | some name => { meta0 with name := name }
          | none => meta0
        let meta := match (alistGet project "version").bind TomlValue.as_str with
          | some ver => { meta with version := some ver }
          | none => meta
        let meta := match (alistGet project "description").bind TomlValue.as_str with
          | some desc => if desc ≠ "" then { meta with description := some desc } else meta
          | none => meta
        let meta := match (alistGet project "requires-python").bind TomlValue.as_str with
          | some rp => { meta with runtime := meta.runtime ++ ["python " ++ rp] }
          | none => meta
        match (alistGet project "dependencies").bind TomlValue.as_array with
        | some deps =>
          (deps.filterMap TomlValue.as_str).foldl (fun (m : ProjectMetadata) (dep : String) =>
            { m with dependencies := m.dependencies ++ [pyDepName dep],
                     requirements := m.requirements ++ [trimAscii dep] }) meta
        | none => meta
      | none => meta0
    | none => meta0
  let meta :=
    if meta.dependencies.isEmpty then
      match fs.readToString (joinPath root "requirements.txt") with
      | some content =>
        (linesOf content).foldl (fun (m : ProjectMetadata) (line : String) =>
          let l := trimAscii line
          if l == "" || strStarts "#" l || strStarts "-" l then m
          else { m with dependencies := m.dependencies ++ [pyDepName l],
                        requirements := m.requirements ++ [l] }) meta
      | none => meta
    else meta
  let meta :=
    if meta.runtime.isEmpty then
      match fs.readToString (joinPath root ".python-version") with
      | some ver =>
        let v := trimAscii ver
        if v ≠ "" then { meta with runtime := meta.runtime ++ ["python " ++ v] } else meta
      | none => meta
    else meta
  match ["main.py", "app.py", "manage.py", "run.py"].find? (fun e => fs.pathExists (joinPath root e)) with
  | some e => { meta with entry_point := some e }
  | none => meta

/-- `metadata.rs` `extract_go_mod`. -/
def extract_go_mod (fs : FS) (root : String) (meta0 : ProjectMetadata) : ProjectMetadata :=
  let meta := match fs.readToString (joinPath root "go.mod") with
    | some content =>
      let meta := (linesOf content).foldl (fun (m : ProjectMetadata) (line : String) =>
        let trimmed := trimAscii line
        let m := if strStarts "module " trimmed then
            { m with name := trimAscii ((stripStrPre "module " trimmed).getD "") }
          else m
        if strStarts "go " trimmed then
          let go_ver := trimAscii ((stripStrPre "go " trimmed).getD "")
          { m with version := some go_ver, runtime := m.runtime ++ ["go " ++ go_ver] }
        else m) meta0
      ((linesOf content).foldl (fun (st : ProjectMetadata × Bool) line =>
        let m := st.1
        let in_require := st.2
        let trimmed := trimAscii line
        if trimmed == "require (" then (m, true)
        else if trimmed == ")" then (m, false)
        else if in_require && trimmed ≠ "" && !(strStarts "//" trimmed) then
          let parts := splitWs trimmed
          let m := match parts.head? with
            | some dep => { m with dependencies := m.dependencies ++ [dep] }
            | none => m
          let m := if 2 ≤ parts.length then
              { m with requirements := m.requirements ++ [parts.getD 0 "" ++ "@" ++ parts.getD 1 ""] }
            else m
          (m, in_require)
        else (m, in_require)) (meta, false)).1
    | none => meta0
  if fs.pathExists (joinPath root "main.go") then { meta with entry_point := some "main.go" } else meta

/-- `metadata.rs` `extract_pubspec_yaml` (hand-written indentation-based
reader; the fold state carries the active nested block flags). -/
def extract_pubspec_yaml (fs : FS) (root : String) (meta0 : ProjectMetadata) : ProjectMetadata :=
  let meta := match fs.readToString (joinPath root "pubspec.yaml") with
    | some content =>
      ((linesOf content).foldl (fun (st : ProjectMetadata × Bool × Bool × Bool) line =>
        let m := st.1
        let in_deps := st.2.1
        let in_dev_deps := st.2.2.1
        let in_environment := st.2.2.2
        let trimmed := trimAscii line
        if !(strStarts " " line) && !(strStarts "\t" line) then
          if strStarts "name:" trimmed then
            ({ m with name := trimAscii ((stripStrPre "name:" trimmed).getD "") }, false, false, false)
          else if strStarts "version:" trimmed then
            ({ m with version := some (trimMatches '\'' (trimMatches '"'
                  (trimAscii ((stripStrPre "version:" trimmed).getD "")))) }, false, false, false)
          else if strStarts "description:" trimmed then
            let desc := trimMatches '\'' (trimMatches '"'
                  (trimAscii ((stripStrPre "description:" trimmed).getD "")))
            ((if desc ≠ "" then { m with description := some desc } else m), false, false, false)
          else if trimmed == "dependencies:" then (m, true, false, false)
          else if trimmed == "dev_dependencies:" then (m, false, true, false)
          else if trimmed == "environment:" then (m, false, false, true)
          else (m, false, false, false)
        else if in_environment && containsStr ":" trimmed then
          let parts := splitN2 ':' trimmed
          if parts.length == 2 then
            let key := trimAscii (parts.getD 0 "")
            let val := trimMatches '\'' (trimMatches '"' (trimAscii (parts.getD 1 "")))
            if val ≠ "" then
              ({ m with runtime := m.runtime ++ [key ++ " " ++ val] }, in_deps, in_dev_deps, in_environment)
            else (m, in_deps, in_dev_deps, in_environment)
          else (m, in_deps, in_dev_deps, in_environment)
        else if (in_deps || in_dev_deps) && containsStr ":" trimmed then
          let parts := splitN2 ':' trimmed
          let dep_name := trimAscii (parts.getD 0 "")
          let dep_ver := match parts.getD 1 "" , parts.length with
            | v, 2 => trimMatches '\'' (trimMatches '"' (trimAscii v))
            | _, _ => ""
          if dep_name ≠ "" && dep_name ≠ "sdk" then
            if in_deps then
              let m := { m with dependencies := m.dependencies ++ [dep_name] }
              let m := if dep_ver ≠ "" && dep_ver ≠ "^" then
                  { m with requirements := m.requirements ++ [dep_name ++ "@" ++ dep_ver] }
                else m
              (m, in_deps, in_dev_deps, in_environment)
            else ({ m with dev_dependencies := m.dev_dependencies ++ [dep_name] },
                  in_deps, in_dev_deps, in_environment)
          else (m, in_deps, in_dev_deps, in_environment)
        else (m, in_deps, in_dev_deps, in_environment)) (meta0, false, false, false)).1
    | none => meta0
  if fs.pathExists (joinPath root "lib/main.dart") then
    { meta with entry_point := some "lib/main.dart" }
  else meta

/-- `metadata.rs` `extract_pom_xml`. -/
def extract_pom_xml (fs : FS) (root : String) (meta0 : ProjectMetadata) : ProjectMetadata :=
  match fs.readToString (joinPath root "pom.xml") with
  | none => meta0
  | some content =>
    let meta := match extract_xml_tag content "artifactId" with
      | some aid => { meta0 with name := aid }
      | none => meta0
    let meta := match extract_xml_tag content "version" with
      | some ver => { meta with version := some ver }
      | none => meta
    let meta := match extract_xml_tag content "description" with
      | some desc => if desc ≠ "" then { meta with description := some desc } else meta
      | none => meta
    let meta := match extract_xml_tag content "java.version" with
      | some jv => { meta with runtime := meta.runtime ++ ["java " ++ jv] }
      | none =>
        match extract_xml_tag content "maven.compiler.source" with
        | some jv => { meta with runtime := meta.runtime ++ ["java " ++ jv] }
        | none => meta
    ((linesOf content).foldl (fun (st : ProjectMetadata × Bool × String × String × String) line =>
      let m := st.1
      let in_deps := st.2.1
      let cur_group := st.2.2.1
      let cur_artifact := st.2.2.2.1
      let cur_version := st.2.2.2.2
      let trimmed := trimAscii line
      let in_deps := if containsStr "<dependencies>" trimmed then true else in_deps
      let in_deps := if containsStr "</dependencies>" trimmed then false else in_deps
      if in_deps then
        let cur_group := match extract_xml_tag trimmed "groupId" with
          | some v => v
          | none => cur_group
        let cur_artifact := match extract_xml_tag trimmed "artifactId" with
          | some v => v
          | none => cur_artifact
        let cur_version := match extract_xml_tag trimmed "version" with
          | some v => v
          | none => cur_version
        if containsStr "</dependency>" trimmed then
          let m := if cur_artifact ≠ "" then
              { m with dependencies := m.dependencies ++ [cur_artifact],
                       requirements := m.requirements ++
                         [if cur_version ≠ "" then cur_group ++ ":" ++ cur_artifact ++ ":" ++ cur_version
                          else cur_group ++ ":" ++ cur_artifact] }
            else m
          (m, in_deps, "", "", "")
        else (m, in_deps, cur_group, cur_artifact, cur_version)
      else (m, in_deps, cur_group, cur_artifact, cur_version)) (meta, false, "", "", "")).1

/-- The per-file scan of a Gradle settings file (`rootProject.name`). -/
def gradleScan (content : String) (meta0 : ProjectMetadata) : ProjectMetadata :=
  (linesOf content).foldl (fun (m : ProjectMetadata) (line : String) =>
    let trimmed := trimAscii line
    if strStarts "rootProject.name" trimmed then
      let name := trimMatches '\'' (trimMatches '"' (trimAscii ((splitStr '=' trimmed).getD 1 "")))
      if name ≠ "" then { m with name := name } else m
    else m) meta0

/-- `metadata.rs` `extract_gradle_meta`: first readable settings file
wins. -/
def extract_gradle_meta (fs : FS) (root : String) (meta0 : ProjectMetadata) : ProjectMetadata :=
  match fs.readToString (joinPath root "settings.gradle.kts") with
  | some content => gradleScan content meta0
  | none =>
    match fs.readToString (joinPath root "settings.gradle") with
    | some content => gradleScan content meta0
    | none => meta0

/-- `metadata.rs` `extract_metadata`: dispatch on the project-type
label. -/
def extract_metadata (fs : FS) (root : String) (project_type : String) : ProjectMetadata :=
  let project_name := if lastComp root == "" then "project" else lastComp root
  let meta : ProjectMetadata :=
    ⟨project_name, project_type, none, none, [], [], none, [], []⟩
  if project_type == "Node.js" || project_type == "Next.js" || project_type == "Vite"
     || project_type == "Nuxt.js" then extract_package_json fs root meta
  else if project_type == "Python" then extract_python_meta fs root meta
  else if project_type == "Rust" then extract_cargo_toml fs root meta
  else if project_type == "Go" then extract_go_mod fs root meta
  else if project_type == "Flutter / Dart" then extract_pubspec_yaml fs root meta
  else if project_type == "Java / Maven" then extract_pom_xml fs root meta
  else if project_type == "Android / Gradle" || project_type == "Gradle" then
    extract_gradle_meta fs root meta
  else meta

/-! ### Pack headers (`packer.rs` `build_*_header`)

Each header is the concatenation of the exact strings pushed by the
source; the pieces are kept as a list so that facts about the rendered
text can be proved piecewise. -/

/-- The `push_str` arguments of `build_plain_header`, in order. -/
def plainHeaderPieces (meta : ProjectMetadata) (file_count : Nat) (estimated_tokens : Nat) :
    List String :=
  ["# Project: " ++ meta.name ++ "\n",
   "# Type: " ++ meta.project_type ++ "\n"]
  ++ (match meta.version with
      | some ver => ["# Version: " ++ ver ++ "\n"]
      | none => [])
  ++ (match meta.description with
      | some desc => ["# Description: " ++ desc ++ "\n"]
      | none => [])
  ++ (match meta.entry_point with
      | some entry => ["# Entry Point: " ++ entry ++ "\n"]
      | none => [])
  ++ (if meta.runtime.isEmpty then [] else
        ["# Runtime: " ++ joinWith ", " meta.runtime ++ "\n"])
  ++ (if meta.dependencies.isEmpty then [] else
        ["# Dependencies: " ++ joinWith ", " meta.dependencies ++ "\n"])
  ++ (if meta.dev_dependencies.isEmpty then [] else
        ["# Dev Dependencies: " ++ joinWith ", " meta.dev_dependencies ++ "\n"])
  ++ (if meta.requirements.isEmpty then [] else
        "# Requirements:\n" :: meta.requirements.map (fun req => "#   " ++ req ++ "\n"))
  ++ ["# Files: " ++ natRepr file_count ++ "\n",
      "# Estimated Tokens: " ++ format_tokens estimated_tokens ++ "\n",
      ("==============================" ++ "==============================\n\n")]

/-- `packer.rs` `build_plain_header`. -/
def build_plain_header (meta : ProjectMetadata) (file_count estimated_tokens : Nat) : String :=
  concatAll (plainHeaderPieces meta file_count estimated_tokens)

/-- The `push_str` arguments of `build_markdown_header`, in order. -/
def markdownHeaderPieces (meta : ProjectMetadata) (file_count estimated_tokens : Nat) :
    List String :=
  ["# " ++ meta.name ++ "\n\n",
   "- **Type:** " ++ meta.project_type ++ "\n"]
  ++ (match meta.version with
      | some ver => ["- **Version:** " ++ ver ++ "\n"]
      | none => [])
  ++ (match meta.description with
      | some desc => ["- **Description:** " ++ desc ++ "\n"]
      | none => [])
  ++ (match meta.entry_point with
      | some entry => ["- **Entry Point:** `" ++ entry ++ "`\n"]
      | none => [])
  ++ (if meta.runtime.isEmpty then [] else
        ["- **Runtime:** " ++ joinWith ", " meta.runtime ++ "\n"])
  ++ (if meta.dependencies.isEmpty then [] else
        ["- **Dependencies (" ++ natRepr meta.dependencies.length ++ "):** "
           ++ joinWith ", " meta.dependencies ++ "\n"])
  ++ (if meta.dev_dependencies.isEmpty then [] else
        ["- **Dev Dependencies (" ++ natRepr meta.dev_dependencies.length ++ "):** "
           ++ joinWith ", " meta.dev_dependencies ++ "\n"])
  ++ (if meta.requirements.isEmpty then [] else
        "- **Requirements:**\n" :: meta.requirements.map (fun req => "  - `" ++ req ++ "`\n"))
  ++ ["- **Files:** " ++ natRepr file_count ++ "\n",
      "- **Estimated Tokens:** " ++ format_tokens estimated_tokens ++ "\n",
      "\n---\n\n"]

/-- `packer.rs` `build_markdown_header`. -/
def build_markdown_header (meta : ProjectMetadata) (file_count estimated_tokens : Nat) : String :=
  concatAll (markdownHeaderPieces meta file_count estimated_tokens)

/-- The `push_str` arguments of `build_xml_header`, in order. -/
def xmlHeaderPieces (meta : ProjectMetadata) (file_count estimated_tokens : Nat) :
    List String :=
  ["<?xml version=\"1.0\" encoding=\"UTF-8\"?>\n",
   "<codepack>\n",
   "<metadata>\n",
   "  <name>" ++ xml_escape meta.name ++ "</name>\n",
   "  <type>" ++ xml_escape meta.project_type ++ "</type>\n"]
  ++ (match meta.version with
      | some ver => ["  <version>" ++ xml_escape ver ++ "</version>\n"]
      | none => [])
  ++ (match meta.description with
      | some desc => ["  <description>" ++ xml_escape desc ++ "</description>\n"]
      | none => [])
  ++ (match meta.entry_point with
      | some entry => ["  <entry_point>" ++ xml_escape entry ++ "</entry_point>\n"]
      | none => [])
  ++ (if meta.runtime.isEmpty then [] else
        "  <runtime>\n" ::
          meta.runtime.map (fun r => "    <env>" ++ xml_escape r ++ "</env>\n")
          ++ ["  </runtime>\n"])
  ++ (if meta.dependencies.isEmpty then [] else
        "  <dependencies>\n" ::
          meta.dependencies.map (fun dep => "    <dep>" ++ xml_escape dep ++ "</dep>\n")
          ++ ["  </dependencies>\n"])
  ++ ["  <file_count>" ++ natRepr file_count ++ "</file_count>\n",
      "  <estimated_tokens>" ++ format_tokens estimated_tokens ++ "</estimated_tokens>\n",
      "</metadata>\n<files>\n\n"]

/-- `packer.rs` `build_xml_header`. -/
def build_xml_header (meta : ProjectMetadata) (file_count estimated_tokens : Nat) : String :=
  concatAll (xmlHeaderPieces meta file_count estimated_tokens)

/-- `packer.rs` `build_header` dispatcher. -/
def build_header (meta : ProjectMetadata) (file_count estimated_tokens : Nat)
    (format : ExportFormat) : String :=
  match format with
  | .Plain => build_plain_header meta file_count estimated_tokens
  | .Markdown => build_markdown_header meta file_count estimated_tokens
  | .Xml => build_xml_header meta file_count estimated_tokens

/-! ### Tree overview (`packer.rs` `TreeNode` / `build_tree_overview`) -/

/-- `packer.rs` `TreeNode`: `BTreeMap<String, TreeNode>` embedded as an
association list kept sorted by key (a `BTreeMap` iterates in ascending
key order). -/
inductive TreeN where
  | mk (children : List (String × TreeN))

/-- Children accessor. -/
def TreeN.children : TreeN → List (String × TreeN)
  | .mk cs => cs

/-- Lexicographic (codepoint = byte) order on strings, the `Ord` used by
`BTreeMap<String, _>`. -/
def charsLt : List Char → List Char → Bool
  | [], [] => false
  | [], _ :: _ => true
  | _ :: _, [] => false
  | a :: as, b :: bs =>
    if a.toNat < b.toNat then true
    else if a.toNat == b.toNat then charsLt as bs
    else false

/-- String order for the `BTreeMap` model. -/
def strLtB (a b : String) : Bool := charsLt a.data b.data

/-- Insert or replace a key in a key-sorted association list (the
`BTreeMap` write path). -/
def putChild : List (String × TreeN) → String → TreeN → List (String × TreeN)
  | [], s, t => [(s, t)]
  | (k, u) :: cs, s, t =>
    if s == k then (k, t) :: cs
    else if strLtB s k then (s, t) :: (k, u) :: cs
    else (k, u) :: putChild cs s t

/-- `current.children.entry(part).or_default()` iterated over the `/`
split segments of one relative path. -/
def insertPath (t : TreeN) : List String → TreeN
  | [] => t
  | s :: rest =>
    let sub := (alistGet t.children s).getD (TreeN.mk [])
    TreeN.mk (putChild t.children s (insertPath sub rest))

/-- The nested tree built from the flat relative paths. -/
def buildTreeN (relative_paths : List String) : TreeN :=
  relative_paths.foldl (fun acc p => insertPath acc (splitStr '/' p)) (TreeN.mk [])

/-- `packer.rs` `render_tree_node`, one sibling list at a time: the lines
pushed for the entries of one `BTreeMap`, in iteration order. -/
def renderEntries (pre : String) (is_root : Bool) : List (String × TreeN) → List String
  | [] => []
  | (name, .mk cs) :: rest =>
    (if is_root then
      if !cs.isEmpty then (name ++ "/") :: renderEntries "  " false cs
      else [name]
    else
      let connector := if rest.isEmpty then "└── " else "├── "
      if !cs.isEmpty then
        let child_pre := if rest.isEmpty then pre ++ "    " else pre ++ "│   "
        (pre ++ connector ++ name ++ "/") :: renderEntries child_pre false cs
      else [pre ++ connector ++ name])
    ++ renderEntries pre is_root rest

/-- `packer.rs` `build_tree_overview`. -/
def build_tree_overview (relative_paths : List String) (format : ExportFormat) : String :=
  if relative_paths.isEmpty then ""
  else
    let root := buildTreeN relative_paths
    let lines := renderEntries "" true root.children
    match format with
    | .Plain =>
      "# File Tree:\n" ++ concatAll (lines.map (fun line => "#   " ++ line ++ "\n")) ++ "#\n\n"
    | .Markdown =>
      "## File Tree\n\n```\n" ++ concatAll (lines.map (fun line => line ++ "\n")) ++ "```\n\n"
    | .Xml =>
      "<file_tree>\n<![CDATA[\n" ++ concatAll (lines.map (fun line => line ++ "\n"))
        ++ "]]>\n</file_tree>\n\n"

/-- `packer.rs` `build_footer`. -/
def build_footer (format : ExportFormat) : String :=
  match format with
  | .Xml => "</files>\n</codepack>\n"
  | _ => ""

/-! ### The pack loop (`packer.rs` `build_pack_content_with_limit`) -/

/-- Relative path of one input path: `strip_prefix(root).unwrap_or(path)`
followed by `to_string_lossy().replace('\\', "/")`. -/
def relativeOf (root p : String) : String := normSlash ((stripRoot root p).getD p)

/-- Reason string of a size skip:
`"exceeds {limit/1024}KB limit ({size/1024}KB)"`. -/
def sizeSkipReason (limit file_size : Nat) : String :=
  "exceeds " ++ natRepr (limit / 1024) ++ "KB limit (" ++ natRepr (file_size / 1024) ++ "KB)"

/-- Reason string of a count-cap skip: `"exceeds {cap} file limit"`. -/
def countSkipReason : String := "exceeds " ++ natRepr MAX_FILE_COUNT ++ " file limit"

/-- The placeholder pushed into the body for a file skipped for size. -/
def sizeSkipBody (format : ExportFormat) (relative : String) (file_size limit : Nat) : String :=
  match format with
  | .Plain =>
    comment_delimiter relative ++ " ===== " ++ relative ++ " [SKIPPED: "
      ++ natRepr (file_size / 1024) ++ "KB > " ++ natRepr (limit / 1024) ++ "KB limit] =====\n\n"
  | .Markdown =>
    "## " ++ relative ++ " *(skipped: " ++ natRepr (file_size / 1024) ++ "KB > "
      ++ natRepr (limit / 1024) ++ "KB limit)*\n\n"
  | .Xml =>
    "<file path=\"" ++ xml_escape relative ++ "\" skipped=\"true\" size_kb=\""
      ++ natRepr (file_size / 1024) ++ "\" />\n\n"

/-- The body segment pushed for an included file. -/
def includedBody (format : ExportFormat) (relative content : String) : String :=
  match format with
  | .Plain =>
    comment_delimiter relative ++ " ===== " ++ relative ++ " =====\n" ++ content ++ "\n\n"
  | .Markdown =>
    let ext := (extOf relative).getD ""
    "## " ++ relative ++ "\n\n```" ++ ext ++ "\n" ++ content
      ++ (if endsNewline content then "" else "\n") ++ "```\n\n"
  | .Xml =>
    "<file path=\"" ++ xml_escape relative ++ "\">\n<![CDATA[\n" ++ content
      ++ (if endsNewline content then "" else "\n") ++ "]]>\n</file>\n\n"

/-- Mutable loop state of `build_pack_content_with_limit`. -/
structure PackSt where
  body : String
  file_count : Nat
  total_bytes : Nat
  skipped_files : List SkippedFile

/-- One iteration of the `for path in paths` loop. -/
def processOne (format : ExportFormat) (fs : FS) (root : String) (limit : Nat)
    (st : PackSt) (p : String) : PackSt :=
  let relative := relativeOf root p
  let file_size := (fs.stat p).getD 0
  if limit < file_size then
    { st with
      skipped_files := st.skipped_files ++ [⟨relative, sizeSkipReason limit file_size, file_size⟩],
      body := st.body ++ sizeSkipBody format relative file_size limit }
  else
    match fs.readToString p with
    | none =>
      { st with
        skipped_files := st.skipped_files ++ [⟨relative, "binary or unreadable file", file_size⟩] }
    | some content =>
      if MAX_FILE_COUNT ≤ st.file_count then
        { st with
          skipped_files := st.skipped_files ++ [⟨relative, countSkipReason, file_size⟩] }
      else
        { st with
          total_bytes := st.total_bytes + utf8Len content,
          file_count := st.file_count + 1,
          body := st.body ++ includedBody format relative content }

/-- The relative paths collected for the tree overview: only paths for
which `strip_prefix(root)` succeeds. -/
def treeInputPaths (root : String) (paths : List String) : List String :=
  paths.filterMap (fun p => (stripRoot root p).map normSlash)

/-- `packer.rs` `build_pack_content_with_limit`.  `tok` is the external
cl100k tokenizer (`BPE.encode_ordinary(..).len()`). -/
def build_pack_content_with_limit (tok : String → Nat) (fs : FS) (paths : List String)
    (project_path project_type : String) (format : ExportFormat)
    (max_file_bytes : Option Nat) : PackResult :=
  let meta := extract_metadata fs project_path project_type
  let limit := max_file_bytes.getD DEFAULT_MAX_FILE_BYTES
  let st := paths.foldl (processOne format fs project_path limit) ⟨"", 0, 0, []⟩
  let estimated_tokens := tok st.body
  let relative_paths := treeInputPaths project_path paths
  let header := build_header meta st.file_count estimated_tokens format
  let tree_overview := build_tree_overview relative_paths format
  let footer := build_footer format
  ⟨header ++ tree_overview ++ st.body ++ footer,
   st.file_count, st.total_bytes, estimated_tokens, st.skipped_files⟩

/-- `packer.rs` `build_pack_content` (default limit). -/
def build_pack_content (tok : String → Nat) (fs : FS) (paths : List String)
    (project_path project_type : String) (format : ExportFormat) : PackResult :=
  build_pack_content_with_limit tok fs paths project_path project_type format none

/-! ### Extended pack (`packer.rs` `build_pack_content_extended`)

The `diffs` argument embeds the `HashMap<String, String>` of diffs as the
sequence of key/value pairs in the map's iteration order; a `HashMap`'s
iteration order is an artefact of its random hash state and is not
determined by the map's contents. -/

/-- The diff section appended for a non-empty diff map, in iteration
order. -/
def diffSection (format : ExportFormat) (diff_map : List (String × String)) : String :=
  match format with
  | .Plain =>
    "# ===== Git Diff (Working Changes) =====\n\n"
      ++ concatAll (diff_map.map (fun kv =>
          "# --- " ++ kv.1 ++ " ---\n" ++ kv.2
            ++ (if endsNewline kv.2 then "" else "\n") ++ "\n"))
  | .Markdown =>
    "## Git Diff (Working Changes)\n\n"
      ++ concatAll (diff_map.map (fun kv =>
          "### " ++ kv.1 ++ "\n\n```diff\n" ++ kv.2
            ++ (if endsNewline kv.2 then "" else "\n") ++ "```\n\n"))
  | .Xml =>
    "<diffs>\n"
      ++ concatAll (diff_map.map (fun kv =>
          "<diff path=\"" ++ xml_escape kv.1 ++ "\">\n<![CDATA[\n" ++ kv.2
            ++ (if endsNewline kv.2 then "" else "\n") ++ "]]>\n</diff>\n"))
      ++ "</diffs>\n\n"

/-- The instruction section appended for a non-empty instruction. -/
def instrSection (format : ExportFormat) (instr : String) : String :=
  match format with
  | .Plain =>
    "# ===== Review Instructions =====\n" ++ instr
      ++ (if endsNewline instr then "" else "\n") ++ "\n"
  | .Markdown =>
    "## Review Instructions\n\n" ++ instr
      ++ (if endsNewline instr then "" else "\n") ++ "\n"
  | .Xml =>
    "<instruction>\n<![CDATA[\n" ++ instr
      ++ (if endsNewline instr then "" else "\n") ++ "]]>\n</instruction>\n\n"

/-- `packer.rs` `build_pack_content_extended`. -/
def build_pack_content_extended (tok : String → Nat) (fs : FS) (paths : List String)
    (project_path project_type : String) (format : ExportFormat)
    (max_file_bytes : Option Nat) (diffs : Option (List (String × String)))
    (instruction : Option String) : PackResult :=
  let result := build_pack_content_with_limit tok fs paths project_path project_type format
    max_file_bytes
  let extra :=
    (match diffs with
     | some diff_map => if diff_map.isEmpty then "" else diffSection format diff_map
     | none => "")
    ++ (match instruction with
        | some instr => if instr == "" then "" else instrSection format instr
        | none => "")
  if extra == "" then result
  else
    { result with
      content := result.content ++ extra,
      estimated_tokens := tok (result.content ++ extra) }

/-! ### Scanner classification (`scanner.rs`) -/

/-- `scanner.rs` `EXCLUDED_DIRS` (the builtin directory denylist). -/
def EXCLUDED_DIRS : List String :=
  ["node_modules", "build", "dist", ".gradle", ".idea", ".vscode", "__pycache__",
   ".git", ".svn", ".hg", "target", ".next", ".nuxt", ".output", "venv", ".venv",
   "env", ".env", ".dart_tool", ".pub-cache", "Pods", "DerivedData", ".cache",
   "coverage", ".turbo", "out", ".DS_Store", "bin", "obj", ".tox", "vendor",
   ".bundle", ".swiftpm"]

/-- `scanner.rs` `SOURCE_EXTENSIONS` (the builtin extension allowlist). -/
def SOURCE_EXTENSIONS : List String :=
  ["rs", "ts", "tsx", "js", "jsx", "vue", "svelte", "py", "kt", "kts", "java",
   "dart", "go", "rb", "php", "swift", "c", "cpp", "h", "hpp", "cs", "m", "mm",
   "scala", "clj", "ex", "exs", "hs", "lua", "r", "jl", "sql", "sh", "bash",
   "zsh", "fish", "bat", "ps1", "yml", "yaml", "toml", "json", "xml", "html",
   "css", "scss", "sass", "less", "md", "mdx", "txt", "cfg", "ini", "conf",
   "env", "dockerfile", "makefile", "cmake", "gradle", "properties", "gitignore",
   "editorconfig", "eslintrc", "prettierrc", "graphql", "gql", "proto", "tf",
   "hcl", "nix", "astro", "mod", "sum", "lock"]

/-- `scanner.rs` `is_excluded_dir`. -/
def is_excluded_dir (name : String) (extra_excludes : List String) : Bool :=
  EXCLUDED_DIRS.any (fun excluded => eqIgnoreAsciiCase name excluded)
    || extra_excludes.any (fun excluded => eqIgnoreAsciiCase name excluded)

/-- `scanner.rs` `is_source_file`. -/
def is_source_file (name : String) (extra_extensions : List String) : Bool :=
  let lower := asciiLower name
  if lower == "dockerfile" || lower == "makefile" || lower == "cmakelists.txt"
     || lower == "rakefile" || lower == "gemfile" || lower == "procfile"
     || lower == "justfile" || lower == "taskfile" || lower == "vagrantfile" then true
  else
    match extOf name with
    | some ext =>
      SOURCE_EXTENSIONS.any (fun se => eqIgnoreAsciiCase se ext)
        || extra_extensions.any (fun se => eqIgnoreAsciiCase se ext)
    | none => false

/-- The per-entry `next.config` / `nuxt.config` / `vite.config` scan of
`detect_project_type` (first matching entry in directory order wins). -/
def jsConfigLabel : List String → Option String
  | [] => none
  | name :: rest =>
    if strStarts "next.config" name then some "Next.js"
    else if strStarts "nuxt.config" name then some "Nuxt.js"
    else if strStarts "vite.config" name then some "Vite"
    else jsConfigLabel rest

/-- `scanner.rs` `detect_project_type` (builtin marker-file heuristics in
priority order). -/
def detect_project_type (fs : FS) (root : String) : String :=
  if fs.pathExists (joinPath root "build.gradle.kts")
     || fs.pathExists (joinPath root "build.gradle") then
    if fs.isDir (joinPath root "app") || fs.pathExists (joinPath root "AndroidManifest.xml") then
      "Android / Gradle"
    else "Gradle"
  else if fs.pathExists (joinPath root "pubspec.yaml") then "Flutter / Dart"
  else if fs.pathExists (joinPath root "Cargo.toml") then "Rust"
  else if fs.pathExists (joinPath root "go.mod") then "Go"
  else if fs.pathExists (joinPath root "pom.xml") then "Java / Maven"
  else if fs.pathExists (joinPath root "Package.swift") then "Swift"
  else if fs.pathExists (joinPath root "CMakeLists.txt") then "C++ / CMake"
  else if (fs.pathExists (joinPath root "Makefile") || fs.pathExists (joinPath root "makefile"))
          && (fs.listDir root).any (fun name => strEnds ".c" name || strEnds ".h" name) then
    "C"
  else if fs.pathExists (joinPath root "Gemfile") then "Ruby"
  else if fs.pathExists (joinPath root "docker-compose.yml")
          || fs.pathExists (joinPath root "docker-compose.yaml") then "Docker"
  else
    match jsConfigLabel (fs.listDir root) with
    | some label => label
    | none =>
      if fs.pathExists (joinPath root "pyproject.toml")
         || fs.pathExists (joinPath root "requirements.txt")
         || fs.pathExists (joinPath root "setup.py") then "Python"
      else if fs.pathExists (joinPath root "package.json") then "Node.js"
      else "通用"

/-! ### Plugins (`plugins.rs`) -/

/-- `plugins.rs` `plugin_matches`. -/
def plugin_matches (fs : FS) (plugin : PluginDef) (root : String) : Bool :=
  let files_match := plugin.detect_files.isEmpty
    || plugin.detect_files.all (fun f => fs.pathExists (joinPath root f))
  let dirs_match := plugin.detect_dirs.isEmpty
    || plugin.detect_dirs.all (fun d => fs.isDir (joinPath root d))
  (!plugin.detect_files.isEmpty || !plugin.detect_dirs.isEmpty) && files_match && dirs_match

/-- `scanner.rs` `detect_project_type_with_plugins`: plugins in load
order first, builtin heuristics as fallback. -/
def detect_project_type_with_plugins (fs : FS) (root : String) : List PluginDef → String
  | [] => detect_project_type fs root
  | plugin :: rest =>
    if plugin_matches fs plugin root then plugin.name
    else detect_project_type_with_plugins fs root rest

/-- `plugins.rs` `get_plugin_excluded_dirs`. -/
def get_plugin_excluded_dirs (plugins : List PluginDef) : List String :=
  plugins.flatMap (fun p => p.exclude_dirs)

/-- `plugins.rs` `get_plugin_source_extensions`. -/
def get_plugin_source_extensions (plugins : List PluginDef) : List String :=
  plugins.flatMap (fun p => p.source_extensions)

/-! ### File tree construction (`scanner.rs` `build_file_tree`)

The directory walk itself is performed by the external `ignore` crate
(hidden-entry skipping, `.gitignore` handling, the override globs built
from the exclusion lists, and file-name sorting); the embedding therefore
takes the walker's yielded entries as input: a list of `WalkItem`s, each
the path (as components) and file-type of one yielded entry.  Everything
from `scanner.rs` lines 219–293 (exclusion re-check, source-file filter,
bottom-up aggregation, sorting) is embedded below. -/

/-- `types.rs` `FileNode` with the path kept as components (the scanner
builds paths with `Path::join`; the selection-state `indeterminate` flag
is owned by the UI and never set by the scanner). -/
structure FileNode where
  name : String
  path : List String
  is_dir : Bool
  children : List FileNode
  checked : Bool

/-- One entry yielded by the `ignore` walker. -/
structure WalkItem where
  path : List String
  is_dir : Bool
deriving DecidableEq, Repr

/-- Stable insertion respecting a strict "must stay before" test
(`lt y x` means `y` sorts strictly before `x`). -/
def insertSorted {α : Type} (lt : α → α → Bool) (x : α) : List α → List α
  | [] => [x]
  | y :: ys => if lt y x then y :: insertSorted lt x ys else x :: y :: ys

/-- Stable sort by repeated insertion.  Embeds Rust's stable
`slice::sort_by` / `sort_by_key`: for the total preorders used here a
stable sort's output is unique, so any stable algorithm is a faithful
model. -/
def insortBy {α : Type} (lt : α → α → Bool) : List α → List α
  | [] => []
  | x :: xs => insertSorted lt x (insortBy lt xs)

/-- `HashMap<PathBuf, Vec<FileNode>>` embedded as an association list
(lookups are by key only; iteration order of the Rust map is never
used). -/
abbrev MapFN : Type := List (List String × List FileNode)

/-- `entry(k).or_default()` read-modify for the no-op case. -/
def ensureKey : MapFN → List String → MapFN
  | [], k => [(k, [])]
  | (k', v) :: rest, k =>
    if k' == k then (k', v) :: rest else (k', v) :: ensureKey rest k

/-- `entry(k).or_default().push(nd)`. -/
def appendAt : MapFN → List String → FileNode → MapFN
  | [], k, nd => [(k, [nd])]
  | (k', v) :: rest, k, nd =>
    if k' == k then (k', v ++ [nd]) :: rest else (k', v) :: appendAt rest k nd

/-- `remove(k).unwrap_or_default()` together with the shrunk map. -/
def removeKey : MapFN → List String → List FileNode × MapFN
  | [], _ => ([], [])
  | (k', v) :: rest, k =>
    if k' == k then (v, rest)
    else
      let r := removeKey rest k
      (r.1, (k', v) :: r.2)

/-- `path.parent().unwrap_or(root)` (walker paths always extend the
root, so the `unwrap_or` arm only fires for degenerate inputs). -/
def parentOf (root : List String) (p : List String) : List String :=
  let par := p.dropLast
  if par.isEmpty then root else par

/-- Walk-loop state: pending children per directory and the surviving
directories in yield order. -/
structure BState where
  dirChildren : MapFN
  seenDirs : List (List String)

/-- One iteration of the walker-result loop (`scanner.rs` 222–262). -/
def procItem (root : List String) (extra_excludes extra_extensions : List String)
    (st : BState) (it : WalkItem) : BState :=
  if it.path == root then st
  else
    let name := it.path.getLastD ""
    let parent_path := parentOf root it.path
    if it.is_dir then
      if is_excluded_dir name extra_excludes then st
      else
        { st with
          seenDirs := st.seenDirs ++ [it.path],
          dirChildren := ensureKey st.dirChildren it.path }
    else
      if !(is_source_file name extra_extensions) then st
      else
        { st with
          dirChildren := appendAt st.dirChildren parent_path ⟨name, it.path, false, [], true⟩ }

/-- One iteration of the bottom-up aggregation loop
(`scanner.rs` 267–285). -/
def aggStep (root : List String) (dc : MapFN) (dir_path : List String) : MapFN :=
  let rm := removeKey dc dir_path
  let children := rm.1
  let dc' := rm.2
  if children.isEmpty then dc'
  else
    let dir_name := dir_path.getLastD ""
    appendAt dc' (parentOf root dir_path) ⟨dir_name, dir_path, true, children, true⟩

/-- The child comparator of `sort_tree` as a strict "sorts before" test:
directories before files, then case-insensitive name order. -/
def nodeCmpLt (a b : FileNode) : Bool :=
  match a.is_dir, b.is_dir with
  | true, false => true
  | false, true => false
  | _, _ => charsLt (asciiLower a.name).data (asciiLower b.name).data

/-- `scanner.rs` `sort_tree`.  The source sorts each child list and then
recurses into directory children; the embedding recurses first and sorts
the result, which is equal because the comparator only reads `is_dir`
and `name`, both preserved by the recursion. -/
def sort_tree (n : FileNode) : FileNode :=
  match n with
  | ⟨name, path, is_dir, children, checked⟩ =>
    ⟨name, path, is_dir,
     insortBy nodeCmpLt
       (children.attach.map (fun c => if c.1.is_dir then sort_tree c.1 else c.1)),
     checked⟩
decreasing_by
  have h := List.sizeOf_lt_of_mem c.2
  simp only [FileNode.mk.sizeOf_spec]
  omega

/-- `scanner.rs` `count_files`. -/
def count_files (n : FileNode) : Nat :=
  match n with
  | ⟨_, _, is_dir, children, _⟩ =>
    (if is_dir then 0 else 1) + (children.attach.map (fun c => count_files c.1)).sum
decreasing_by
  have h := List.sizeOf_lt_of_mem c.2
  simp only [FileNode.mk.sizeOf_spec]
  omega

/-- `scanner.rs` `build_file_tree` (consuming the walker's entries). -/
def build_file_tree (root : List String) (items : List WalkItem)
    (extra_excludes extra_extensions : List String) : FileNode :=
  let root_name := match root.getLast? with
    | some n => n
    | none => joinWith "/" root
  let st := items.foldl (procItem root extra_excludes extra_extensions) ⟨[], []⟩
  let sorted_dirs := insortBy (fun a b => b.length < a.length) st.seenDirs
  let dc := sorted_dirs.foldl (aggStep root) st.dirChildren
  let root_children := (removeKey dc root).1
  sort_tree ⟨root_name, root, true, root_children, true⟩

/-! ### Scan commands (`commands.rs`) -/

/-- `types.rs` `ScanResult`. -/
structure ScanResult where
  project_type : String
  tree : FileNode
  total_files : Nat
  metadata : ProjectMetadata

/-- `types.rs` `ScanProgress`. -/
structure ScanProgress where
  phase : String
  files_found : Nat
  message : String
deriving DecidableEq, Repr

/-- `commands.rs` `scan_directory` (synchronous).  The plugin list is the
result of `load_plugins()` (external storage) and `items` the walker's
entries, both passed in as environment. -/
def scan_directory (fs : FS) (items : List WalkItem) (plugins : List PluginDef)
    (path : String) (custom_excludes : Option (List String)) : Except String ScanResult :=
  if !(fs.pathExists path) || !(fs.isDir path) then
    .error "Path does not exist or is not a directory"
  else
    let project_type := detect_project_type_with_plugins fs path plugins
    let extra_excludes := get_plugin_excluded_dirs plugins ++ custom_excludes.getD []
    let extra_extensions := get_plugin_source_extensions plugins
    let tree := build_file_tree (pathComps path) items extra_excludes extra_extensions
    let total_files := count_files tree
    let metadata := extract_metadata fs path project_type
    .ok ⟨project_type, tree, total_files, metadata⟩

/-- `commands.rs` `scan_directory_async`: the blocking closure's value
plus the fire-and-forget progress events it emits, in order (the
existence / directory guard runs before the first emission). -/
def scan_directory_async (fs : FS) (items : List WalkItem) (plugins : List PluginDef)
    (path : String) (custom_excludes : Option (List String)) :
    Except String ScanResult × List ScanProgress :=
  if !(fs.pathExists path) || !(fs.isDir path) then
    (.error "Path does not exist or is not a directory", [])
  else
    let ev1 : ScanProgress := ⟨"detecting", 0, "Detecting project type..."⟩
    let project_type := detect_project_type_with_plugins fs path plugins
    let extra_excludes := get_plugin_excluded_dirs plugins ++ custom_excludes.getD []
    let extra_extensions := get_plugin_source_extensions plugins
    let ev2 : ScanProgress := ⟨"scanning", 0, "Scanning files..."⟩
    let tree := build_file_tree (pathComps path) items extra_excludes extra_extensions
    let total_files := count_files tree
    let ev3 : ScanProgress :=
      ⟨"metadata", total_files,
       "Found " ++ natRepr total_files ++ " files, extracting metadata..."⟩
    let metadata := extract_metadata fs path project_type
    let ev4 : ScanProgress :=
      ⟨"done", total_files, "Scan complete: " ++ natRepr total_files ++ " files"⟩
    (.ok ⟨project_type, tree, total_files, metadata⟩, [ev1, ev2, ev3, ev4])

/-! ### Support definitions for the verification statements -/

/-- Reflexive-transitive descendant relation on tree nodes ("appears in
the tree"). -/
inductive Subnode : FileNode → FileNode → Prop where
  | refl (n : FileNode) : Subnode n n
  | child {m c n : FileNode} : c ∈ n.children → Subnode m c → Subnode m n

/-- Well-formedness of one node of a built tree, relative to the
exclusion lists: files are childless; directories are non-empty and not
excluded; children extend the parent's path by their own name. -/
inductive GoodN (ex : List String) : FileNode → Prop where
  | mk : ∀ n : FileNode,
      (n.is_dir = false → n.children = []) →
      (n.is_dir = true → is_excluded_dir n.name ex = false ∧ n.children ≠ []) →
      (∀ c ∈ n.children, c.path = n.path ++ [c.name]) →
      (∀ c ∈ n.children, GoodN ex c) →
      GoodN ex n

/-- Invariant of the pending-children map: every stored node is
well-formed and sits under its key. -/
def MapInv (ex : List String) (m : MapFN) : Prop :=
  ∀ kv ∈ m, ∀ nd ∈ (kv : List String × List FileNode).2,
    GoodN ex nd ∧ nd.path = kv.1 ++ [nd.name]

/-- Invariant of the surviving-directimes list: every recorded directory
extends the root properly and has a non-excluded name. -/
def SeenInv (root ex : List String) (l : List (List String)) : Prop :=
  ∀ d ∈ l, root.isPrefixOf d = true ∧ d ≠ root
    ∧ is_excluded_dir (d.getLastD "") ex = false

/-- All keys of a packer tree-overview node are `<`-free. -/
inductive KeysLtFree : TreeN → Prop where
  | mk : ∀ cs : List (String × TreeN),
      (∀ kv ∈ cs, (kv : String × TreeN).1.data.contains '<' = false) →
      (∀ kv ∈ cs, KeysLtFree (kv : String × TreeN).2) →
      KeysLtFree (.mk cs)

/-- The four XML structural tag strings of the pack document. -/
def XmlPat (p : String) : Prop :=
  p = "<codepack>" ∨ p = "</codepack>" ∨ p = "<files>" ∨ p = "</files>"

/-- Pointwise agreement of two filesystems at one path: every
standard-library query the core makes gives the same answer. -/
def FS.agreeAt (fs1 fs2 : FS) (q : String) : Prop :=
  fs1.pathExists q = fs2.pathExists q ∧ fs1.isDir q = fs2.isDir q
    ∧ fs1.listDir q = fs2.listDir q ∧ fs1.stat q = fs2.stat q
    ∧ fs1.readToString q = fs2.readToString q ∧ fs1.readJson q = fs2.readJson q
    ∧ fs1.readToml q = fs2.readToml q

/-- Every file the metadata extractor may consult under a root,
whatever the project-type label. -/
def metaProbes (root : String) : List String :=
  [joinPath root "package.json", joinPath root ".nvmrc", joinPath root ".node-version",
   joinPath root "tsconfig.json", joinPath root "Cargo.toml", joinPath root "pyproject.toml",
   joinPath root "requirements.txt", joinPath root ".python-version",
   joinPath root "main.py", joinPath root "app.py", joinPath root "manage.py",
   joinPath root "run.py", joinPath root "go.mod", joinPath root "main.go",
   joinPath root "pubspec.yaml", joinPath root "lib/main.dart", joinPath root "pom.xml",
   joinPath root "settings.gradle.kts", joinPath root "settings.gradle"]

/-- An index position mismatch between two character lists within their
common length (no extension of the second list can have the first as a
prefix). -/
def conflict : List Char → List Char → Bool
  | _, [] => false
  | [], _ => false
  | a :: as, b :: bs => a != b || conflict as bs

/-- Safety of a fixed document segment against a search pattern that
starts with `<`: every `<` inside the segment opens a run that mismatches
the pattern within the segment itself, so no occurrence of the pattern
can start inside the segment, whatever text follows it. -/
def litSafe (p : List Char) : List Char → Bool
  | [] => true
  | c :: rest => (if c == '<' then conflict p (c :: rest) else true) && litSafe p rest

/-! ### Concrete fixtures for witnesses and counterexamples -/

/-- A filesystem with nothing in it. -/
def fsEmpty : FS :=
  ⟨fun _ => false, fun _ => false, fun _ => [], fun _ => none, fun _ => none,
   fun _ => none, fun _ => none⟩

/-- A filesystem holding one 200-byte unreadable file `r/big.rs`. -/
def fsBig : FS :=
  { fsEmpty with stat := fun q => if q == "r/big.rs" then some 200 else none }

/-- A filesystem holding one 11-byte file `r/a.rs` whose text is the
string `"<codepack>\n"`. -/
def fsTag : FS :=
  { fsEmpty with
    stat := fun q => if q == "r/a.rs" then some 11 else none,
    readToString := fun q => if q == "r/a.rs" then some "<codepack>\n" else none }

/-- A filesystem holding one 3-byte readable file `r/a.rs`. -/
def fsSmall : FS :=
  { fsEmpty with
    stat := fun q => if q == "r/a.rs" then some 3 else none,
    readToString := fun q => if q == "r/a.rs" then some "ok\n" else none }

/-- Like `fsSmall` but answering differently at the unrelated path
`elsewhere`. -/
def fsSmall' : FS :=
  { fsSmall with isDir := fun q => q == "elsewhere" }

/-- A filesystem where only `r/special.config` exists. -/
def fsSpecial : FS :=
  { fsEmpty with pathExists := fun q => q == "r/special.config" }

/-- A plugin detecting `special.config`. -/
def pluginSpecial : PluginDef := ⟨"Special", "1.0", ["special.config"], [], [], []⟩

/-- A `package.json` document with two dependencies in manifest order
(`zlib` before `alpha`, deliberately not alphabetical). -/
def pkgJsonFix : JsonValue :=
  .obj [("name", .str "fix"),
        ("dependencies", .obj [("zlib", .str "^1.0"), ("alpha", .str "^2.0")]),
        ("devDependencies", .obj [("jest", .str "^29")])]

/-- A `Cargo.toml` document with two dependencies in manifest order. -/
def cargoTomlFix : TomlValue :=
  .table [("package", .table [("name", .str "fix")]),
          ("dependencies", .table [("zlib", .str "1"), ("alpha", .table [("version", .str "2")])])]

/-- A filesystem serving the two fixture manifests under root `r`. -/
def fsManifests : FS :=
  { fsEmpty with
    readJson := fun q => if q == "r/package.json" then some pkgJsonFix else none,
    readToml := fun q => if q == "r/Cargo.toml" then some cargoTomlFix else none }

/-- A filesystem holding one 200-byte file `q/a.rs` (outside the pack
root `r` used by the statements below). -/
def fsOutside : FS :=
  { fsEmpty with stat := fun q => if q == "q/a.rs" then some 200 else none }

/-- An initial metadata record for the extractor fixtures. -/
def metaZero : ProjectMetadata := ⟨"fix", "", none, none, [], [], none, [], []⟩

/-! ### Pack-loop accounting lemmas -/

/-- Every loop iteration settles its path in exactly one way: the
included-file counter or the skip list grows by one, never both, never
neither. -/
theorem processOne_outcome (format : ExportFormat) (fs : FS) (root : String) (limit : Nat)
    (st : PackSt) (p : String) :
    (processOne format fs root limit st p).file_count
        + (processOne format fs root limit st p).skipped_files.length
      = st.file_count + st.skipped_files.length + 1 := by
  simp only [processOne]
  by_cases h : limit < (fs.stat p).getD 0
  · simp [h]; omega
  · simp only [if_neg h]
    cases hr : fs.readToString p with
    | none => simp; omega
    | some content =>
      by_cases hc : MAX_FILE_COUNT ≤ st.file_count
      · simp [hc]; omega
      · simp [hc]; omega

/-- Fold version of `processOne_outcome`. -/
theorem foldPack_outcome (format : ExportFormat) (fs : FS) (root : String) (limit : Nat)
    (paths : List String) :
    ∀ st : PackSt,
      (paths.foldl (processOne format fs root limit) st).file_count
          + (paths.foldl (processOne format fs root limit) st).skipped_files.length
        = st.file_count + st.skipped_files.length + paths.length := by
  induction paths with
  | nil => intro st; simp
  | cons p rest ih =>
    intro st
    simp only [List.foldl_cons, List.length_cons]
    rw [ih]
    have h := processOne_outcome format fs root limit st p
    omega

/-- Claim C1: for every list of input paths and every root, format and
size limit, each path given to the pack operation ends in exactly one of
two outcomes — it contributes to `file_count` (and the body) or it
appears as an entry in `skipped_files`; no input path is dropped from
both, so the two tallies always add up to the number of input paths. -/
theorem C1_no_path_silently_dropped (tok : String → Nat) (fs : FS) (paths : List String)
    (project_path project_type : String) (format : ExportFormat)
    (max_file_bytes : Option Nat) :
    (build_pack_content_with_limit tok fs paths project_path project_type format
        max_file_bytes).file_count
      + (build_pack_content_with_limit tok fs paths project_path project_type format
        max_file_bytes).skipped_files.length
      = paths.length := by
  unfold build_pack_content_with_limit
  simpa using foldPack_outcome format fs project_path
    (max_file_bytes.getD DEFAULT_MAX_FILE_BYTES) paths ⟨"", 0, 0, []⟩

/-! ### Size-skip lemmas -/

/-- A loop iteration only ever appends to the skip list. -/
theorem processOne_skipped_suffix (format : ExportFormat) (fs : FS) (root : String)
    (limit : Nat) (st : PackSt) (p : String) :
    ∃ l, (processOne format fs root limit st p).skipped_files = st.skipped_files ++ l := by
  simp only [processOne]
  by_cases h : limit < (fs.stat p).getD 0
  · refine ⟨[⟨relativeOf root p, sizeSkipReason limit ((fs.stat p).getD 0),
      (fs.stat p).getD 0⟩], ?_⟩
    simp [h]
  · simp only [if_neg h]
    cases hr : fs.readToString p with
    | none => exact ⟨_, rfl⟩
    | some content =>
      by_cases hc : MAX_FILE_COUNT ≤ st.file_count
      · refine ⟨[⟨relativeOf root p, countSkipReason, (fs.stat p).getD 0⟩], ?_⟩
        simp [hc]
      · exact ⟨[], by simp [hc]⟩

/-- The whole loop only ever appends to the skip list. -/
theorem foldPack_skipped_suffix (format : ExportFormat) (fs : FS) (root : String)
    (limit : Nat) (paths : List String) :
    ∀ st : PackSt, ∃ l,
      (paths.foldl (processOne format fs root limit) st).skipped_files
        = st.skipped_files ++ l := by
  induction paths with
  | nil => intro st; exact ⟨[], by simp⟩
  | cons p rest ih =>
    intro st
    obtain ⟨l1, h1⟩ := processOne_skipped_suffix format fs root limit st p
    obtain ⟨l2, h2⟩ := ih (processOne format fs root limit st p)
    exact ⟨l1 ++ l2, by simp [List.foldl_cons, h2, h1]⟩

/-- Skip records persist to the end of the loop. -/
theorem mem_foldPack_skipped (format : ExportFormat) (fs : FS) (root : String)
    (limit : Nat) (paths : List String) (st : PackSt) (x : SkippedFile)
    (hx : x ∈ st.skipped_files) :
    x ∈ (paths.foldl (processOne format fs root limit) st).skipped_files := by
  obtain ⟨l, hl⟩ := foldPack_skipped_suffix format fs root limit paths st
  rw [hl]
  exact List.mem_append_left l hx

/-- The exact effect of one loop iteration on a path whose stat size
exceeds the limit: one skip record and one body placeholder, nothing
else. -/
theorem processOne_size_skip (format : ExportFormat) (fs : FS) (root : String)
    (limit : Nat) (st : PackSt) (p : String) (h : limit < (fs.stat p).getD 0) :
    processOne format fs root limit st p =
      { st with
        skipped_files := st.skipped_files ++
          [⟨relativeOf root p, sizeSkipReason limit ((fs.stat p).getD 0), (fs.stat p).getD 0⟩],
        body := st.body ++ sizeSkipBody format (relativeOf root p) ((fs.stat p).getD 0) limit } := by
  simp only [processOne]
  rw [if_pos h]

/-- A prefix stays a prefix when the list is extended on the right. -/
theorem isPrefixOf_append_ext (p : List Char) :
    ∀ l t : List Char, p.isPrefixOf l = true → p.isPrefixOf (l ++ t) = true := by
  induction p with
  | nil => intro l t _; simp [List.isPrefixOf]
  | cons a as ih =>
    intro l t h
    cases l with
    | nil => simp [List.isPrefixOf] at h
    | cons b bs =>
      simp only [List.isPrefixOf, Bool.and_eq_true] at h ⊢
      exact ⟨h.1, ih bs t h.2⟩

/-- An occurrence inside the right part survives prepending. -/
theorem containsChars_append_left (p : List Char) (s t : List Char)
    (h : containsChars p t = true) : containsChars p (s ++ t) = true := by
  induction s with
  | nil => simpa
  | cons c cs ih =>
    show (p.isPrefixOf (c :: (cs ++ t)) || containsChars p (cs ++ t)) = true
    rw [ih]
    simp

/-- An occurrence inside the left part survives appending. -/
theorem containsChars_append_right (p : List Char) (s t : List Char)
    (h : containsChars p s = true) : containsChars p (s ++ t) = true := by
  induction s with
  | nil =>
    simp only [containsChars, List.isEmpty_iff] at h
    subst h
    cases t with
    | nil => simp [containsChars]
    | cons c cs => simp [containsChars, List.isPrefixOf]
  | cons c cs ih =>
    show (p.isPrefixOf (c :: (cs ++ t)) || containsChars p (cs ++ t)) = true
    have h' : (p.isPrefixOf (c :: cs) || containsChars p cs) = true := h
    rcases Bool.or_eq_true_iff.mp h' with hpre | hin
    · have : p.isPrefixOf ((c :: cs) ++ t) = true := isPrefixOf_append_ext p (c :: cs) t hpre
      rw [show (c :: cs) ++ t = c :: (cs ++ t) from rfl] at this
      rw [this]
      simp
    · rw [ih hin]
      simp

/-- The reason attached to a size skip mentions the word "limit". -/
theorem sizeSkipReason_contains_limit (limit size : Nat) :
    containsStr "limit" (sizeSkipReason limit size) = true := by
  unfold containsStr sizeSkipReason
  simp only [String.data_append]
  apply containsChars_append_right
  apply containsChars_append_right
  apply containsChars_append_left
  decide

/-- Claim C2: a file whose stat-reported size exceeds the active limit
(default 1 MiB; a failing stat counts as size 0) is settled in one loop
step that appends a `SkippedFile` whose `size_bytes` strictly exceeds
the limit and whose reason contains the word "limit", appends the
format-specific placeholder to the body, and leaves `file_count` and
`total_bytes` untouched; the record is present in the final
`skipped_files`. -/
theorem C2_size_skip_record (tok : String → Nat) (fs : FS) (paths : List String)
    (project_path project_type : String) (format : ExportFormat)
    (max_file_bytes : Option Nat) (p : String) (hp : p ∈ paths)
    (hsize : max_file_bytes.getD DEFAULT_MAX_FILE_BYTES < (fs.stat p).getD 0) :
    (∀ st : PackSt,
        processOne format fs project_path (max_file_bytes.getD DEFAULT_MAX_FILE_BYTES) st p =
          { st with
            skipped_files := st.skipped_files ++
              [⟨relativeOf project_path p,
                sizeSkipReason (max_file_bytes.getD DEFAULT_MAX_FILE_BYTES) ((fs.stat p).getD 0),
                (fs.stat p).getD 0⟩],
            body := st.body ++ sizeSkipBody format (relativeOf project_path p)
              ((fs.stat p).getD 0) (max_file_bytes.getD DEFAULT_MAX_FILE_BYTES) })
    ∧ (⟨relativeOf project_path p,
          sizeSkipReason (max_file_bytes.getD DEFAULT_MAX_FILE_BYTES) ((fs.stat p).getD 0),
          (fs.stat p).getD 0⟩ : SkippedFile)
        ∈ (build_pack_content_with_limit tok fs paths project_path project_type format
            max_file_bytes).skipped_files
    ∧ max_file_bytes.getD DEFAULT_MAX_FILE_BYTES < (fs.stat p).getD 0
    ∧ containsStr "limit"
        (sizeSkipReason (max_file_bytes.getD DEFAULT_MAX_FILE_BYTES) ((fs.stat p).getD 0))
        = true := by
  refine ⟨fun st => processOne_size_skip format fs project_path _ st p hsize, ?_, hsize,
    sizeSkipReason_contains_limit _ _⟩
  obtain ⟨l1, l2, rfl⟩ := List.append_of_mem hp
  unfold build_pack_content_with_limit
  simp only [List.foldl_append, List.foldl_cons]
  apply mem_foldPack_skipped
  rw [processOne_size_skip format fs project_path _ _ p hsize]
  simp

/-- Witness for C2 at a concrete input: a 200-byte `r/big.rs` against a
100-byte limit. -/
theorem C2_size_skip_record_witness :
    "r/big.rs" ∈ ["r/big.rs"]
  ∧ (some 100 : Option Nat).getD DEFAULT_MAX_FILE_BYTES < (fsBig.stat "r/big.rs").getD 0
  ∧ (⟨"big.rs", sizeSkipReason 100 200, 200⟩ : SkippedFile)
      ∈ (build_pack_content_with_limit (fun _ => 0) fsBig ["r/big.rs"] "r" "" .Plain
          (some 100)).skipped_files := by
  refine ⟨by decide, by decide, ?_⟩
  have h := (C2_size_skip_record (fun _ => 0) fsBig ["r/big.rs"] "r" "" .Plain (some 100)
    "r/big.rs" (by decide) (by decide)).2.1
  have h1 : relativeOf "r" "r/big.rs" = "big.rs" := by decide
  have h2 : (fsBig.stat "r/big.rs").getD 0 = 200 := by decide
  have h3 : (some 100 : Option Nat).getD DEFAULT_MAX_FILE_BYTES = 100 := by decide
  rw [h1, h2, h3] at h
  exact h

/-! ### Scan guard (C9) -/

/-- Claim C9: when the requested root does not exist or is not a
directory, both scan variants fail outright with the fixed error message
and produce nothing: no tree, metadata or file count (the async variant
does not even emit a progress event). -/
theorem C9_scan_guard (fs : FS) (items : List WalkItem) (plugins : List PluginDef)
    (path : String) (custom_excludes : Option (List String))
    (h : ¬(fs.pathExists path = true ∧ fs.isDir path = true)) :
    scan_directory fs items plugins path custom_excludes
        = .error "Path does not exist or is not a directory"
  ∧ scan_directory_async fs items plugins path custom_excludes
        = (.error "Path does not exist or is not a directory", []) := by
  have hg : (!(fs.pathExists path) || !(fs.isDir path)) = true := by
    cases hx : fs.pathExists path <;> cases hy : fs.isDir path <;> simp_all
  refine ⟨?_, ?_⟩ <;> simp [scan_directory, scan_directory_async, hg]

/-- Witness for C9 at a concrete input: a path that exists nowhere. -/
theorem C9_scan_guard_witness :
    scan_directory fsEmpty [] [] "nowhere" none
        = .error "Path does not exist or is not a directory"
  ∧ scan_directory_async fsEmpty [] [] "nowhere" none
        = (.error "Path does not exist or is not a directory", []) :=
  C9_scan_guard fsEmpty [] [] "nowhere" none (by decide)

/-! ### Paths outside the root (C10) -/

/-- Dropping a path the root-strip rejects does not change the tree
overview's input. -/
theorem treeInput_erase_none (root : String) (paths : List String) (p : String)
    (h : stripRoot root p = none) :
    treeInputPaths root (paths.filter (fun q => !(q == p))) = treeInputPaths root paths := by
  unfold treeInputPaths
  induction paths with
  | nil => rfl
  | cons q rest ih =>
    by_cases hq : q == p
    · have hqp : q = p := by simpa using hq
      subst hqp
      simp only [List.filter_cons, hq, Bool.not_true, List.filterMap_cons, h, Option.map_none']
      exact ih
    · simp only [List.filter_cons, hq, Bool.not_false, List.filterMap_cons]
      cases hsq : stripRoot root q <;> simp [List.filterMap_cons, hsq, ih]

/-- Claim C10: a path that is not under the given root is still
processed like any other path — the relative name used by its body
segment or skip record is the full path, backslashes normalised — while
the tree overview only ever contains under-root paths, so the path
contributes nothing to it. -/
theorem C10_outside_root (tok : String → Nat) (fs : FS) (paths : List String)
    (project_path project_type : String) (format : ExportFormat)
    (max_file_bytes : Option Nat) (p : String) (hp : p ∈ paths)
    (h : stripRoot project_path p = none) :
    relativeOf project_path p = normSlash p
  ∧ (max_file_bytes.getD DEFAULT_MAX_FILE_BYTES < (fs.stat p).getD 0 →
      (⟨normSlash p,
          sizeSkipReason (max_file_bytes.getD DEFAULT_MAX_FILE_BYTES) ((fs.stat p).getD 0),
          (fs.stat p).getD 0⟩ : SkippedFile)
        ∈ (build_pack_content_with_limit tok fs paths project_path project_type format
            max_file_bytes).skipped_files)
  ∧ treeInputPaths project_path (paths.filter (fun q => !(q == p)))
      = treeInputPaths project_path paths
  ∧ (∀ r ∈ treeInputPaths project_path paths,
      ∃ q ∈ paths, ∃ r', stripRoot project_path q = some r' ∧ r = normSlash r') := by
  have hrel : relativeOf project_path p = normSlash p := by
    unfold relativeOf
    rw [h]
    rfl
  refine ⟨hrel, ?_, treeInput_erase_none _ _ _ h, ?_⟩
  · intro hsz
    rw [← hrel]
    obtain ⟨l1, l2, rfl⟩ := List.append_of_mem hp
    unfold build_pack_content_with_limit
    simp only [List.foldl_append, List.foldl_cons]
    apply mem_foldPack_skipped
    rw [processOne_size_skip format fs project_path _ _ p hsz]
    simp
  · intro r hr
    unfold treeInputPaths at hr
    rw [List.mem_filterMap] at hr
    obtain ⟨q, hq, hfq⟩ := hr
    cases hsq : stripRoot project_path q with
    | none => rw [hsq] at hfq; simp at hfq
    | some r' =>
      rw [hsq] at hfq
      simp only [Option.map_some', Option.some.injEq] at hfq
      exact ⟨q, hq, r', hsq, hfq.symm⟩

/-- Witness for C10 at a concrete input: `q/a.rs` packed against root
`r`. -/
theorem C10_outside_root_witness :
    relativeOf "r" "q/a.rs" = normSlash "q/a.rs"
  ∧ treeInputPaths "r" (["q/a.rs"].filter (fun q => !(q == "q/a.rs")))
      = treeInputPaths "r" ["q/a.rs"] := by
  have h := C10_outside_root (fun _ => 0) fsOutside ["q/a.rs"] "r" "" .Plain (some 100)
    "q/a.rs" (by decide) (by decide)
  exact ⟨h.1, h.2.2.1⟩

/-! ### Plugin-first project-type detection (C5) -/

/-- Claim C5: project-type detection walks the plugin list in load
order; the first plugin that matches wins and its name is returned
instead of any builtin label, falling back to the builtin heuristics
only when no plugin matches; and a plugin matches exactly when it has at
least one detect rule, every listed file exists under the root, and
every listed directory exists as a directory under the root. -/
theorem C5_plugin_first_detection (fs : FS) (root : String) (plugins : List PluginDef) :
    detect_project_type_with_plugins fs root plugins
      = (match plugins.find? (fun pl => plugin_matches fs pl root) with
         | some pl => pl.name
         | none => detect_project_type fs root)
  ∧ (∀ pl : PluginDef,
      plugin_matches fs pl root = true ↔
        ((pl.detect_files ≠ [] ∨ pl.detect_dirs ≠ [])
          ∧ (∀ f ∈ pl.detect_files, fs.pathExists (joinPath root f) = true)
          ∧ (∀ d ∈ pl.detect_dirs, fs.isDir (joinPath root d) = true))) := by
  constructor
  · induction plugins with
    | nil => rfl
    | cons pl rest ih =>
      by_cases h : plugin_matches fs pl root = true
      · have hf : List.find? (fun q => plugin_matches fs q root) (pl :: rest) = some pl := by
          simp [List.find?_cons, h]
        show (if plugin_matches fs pl root then pl.name
              else detect_project_type_with_plugins fs root rest) = _
        rw [hf, if_pos h]
      · have h' : plugin_matches fs pl root = false := by simpa using h
        have hf : List.find? (fun q => plugin_matches fs q root) (pl :: rest)
            = List.find? (fun q => plugin_matches fs q root) rest := by
          simp [List.find?_cons, h']
        show (if plugin_matches fs pl root then pl.name
              else detect_project_type_with_plugins fs root rest) = _
        rw [hf, if_neg (by simp [h']), ih]
  · intro pl
    obtain ⟨nm, ver, df, dd, ex, se⟩ := pl
    have hauxf : ∀ (l : List String) (g : String → Bool),
        (l.isEmpty || l.all g) = true ↔ ∀ x ∈ l, g x = true := by
      intro l g
      cases l with
      | nil => simp
      | cons a as => simp [List.isEmpty]
    have hne : (!df.isEmpty || !dd.isEmpty) = true ↔ (df ≠ [] ∨ dd ≠ []) := by
      cases df <;> cases dd <;> simp
    show ((!df.isEmpty || !dd.isEmpty)
        && (df.isEmpty || df.all fun f => fs.pathExists (joinPath root f))
        && (dd.isEmpty || dd.all fun d => fs.isDir (joinPath root d))) = true ↔ _
    rw [Bool.and_eq_true, Bool.and_eq_true, hne, hauxf df _, hauxf dd _]
    constructor
    · rintro ⟨⟨h1, h2⟩, h3⟩; exact ⟨h1, h2, h3⟩
    · rintro ⟨h1, h2, h3⟩; exact ⟨⟨h1, h2⟩, h3⟩

/-- Witness for C5 at a concrete input: a plugin detecting
`special.config`, with that file present, beats every builtin label. -/
theorem C5_plugin_first_detection_witness :
    plugin_matches fsSpecial pluginSpecial "r" = true
  ∧ detect_project_type_with_plugins fsSpecial "r" [pluginSpecial] = "Special" := by
  have h := C5_plugin_first_detection fsSpecial "r" [pluginSpecial]
  constructor
  · exact (h.2 pluginSpecial).mpr ⟨Or.inl (by decide), by decide, by decide⟩
  · rw [h.1]; decide

/-! ### Dependency order (C4) -/

/-- `pkgDevDepsStep`, `pkgNvmStep` and `pkgTsStep` leave the
`dependencies` field alone. -/
theorem pkg_post_steps_deps (fs : FS) (root : String) (pkg : JsonValue)
    (m : ProjectMetadata) :
    (pkgTsStep fs root (pkgNvmStep fs root (pkgDevDepsStep pkg m))).dependencies
      = m.dependencies := by
  unfold pkgTsStep pkgNvmStep pkgDevDepsStep
  repeat' split
  all_goals rfl

/-- `cargoDevDepsStep` leaves the `dependencies` field alone. -/
theorem cargo_post_steps_deps (doc : TomlValue) (m : ProjectMetadata) :
    (cargoDevDepsStep doc m).dependencies = m.dependencies := by
  unfold cargoDevDepsStep
  split
  all_goals rfl

/-- Claim C4: both the Node-family `package.json` reader and the Rust
`Cargo.toml` reader copy the keys of the manifest's `dependencies`
map into `ProjectMetadata.dependencies` in manifest order (the parsed
maps preserve insertion order, which equals the order the keys appear in
the manifest file). -/
theorem C4_dependencies_manifest_order (fs : FS) (root : String) (m0 mt : ProjectMetadata)
    (pkg : JsonValue) (jdeps : List (String × JsonValue))
    (doc : TomlValue) (tdeps : List (String × TomlValue))
    (hjr : fs.readJson (joinPath root "package.json") = some pkg)
    (hjd : pkg.get "dependencies" = some (.obj jdeps))
    (htr : fs.readToml (joinPath root "Cargo.toml") = some doc)
    (htd : doc.get "dependencies" = some (.table tdeps)) :
    (extract_package_json fs root m0).dependencies = jdeps.map Prod.fst
  ∧ (extract_cargo_toml fs root mt).dependencies = tdeps.map Prod.fst := by
  constructor
  · unfold extract_package_json
    rw [hjr]
    rw [pkg_post_steps_deps]
    unfold pkgDepsStep
    rw [hjd]
    rfl
  · unfold extract_cargo_toml
    rw [htr]
    rw [cargo_post_steps_deps]
    unfold cargoDepsStep
    rw [htd]
    rfl

/-- Witness for C4 at a concrete input: manifests listing `zlib` before
`alpha` (deliberately not alphabetical) keep that order. -/
theorem C4_dependencies_manifest_order_witness :
    (extract_package_json fsManifests "r" metaZero).dependencies = ["zlib", "alpha"]
  ∧ (extract_cargo_toml fsManifests "r" metaZero).dependencies = ["zlib", "alpha"] := by
  have h := C4_dependencies_manifest_order fsManifests "r" metaZero metaZero pkgJsonFix
    [("zlib", .str "^1.0"), ("alpha", .str "^2.0")] cargoTomlFix
    [("zlib", .str "1"), ("alpha", .table [("version", .str "2")])]
    rfl rfl rfl rfl
  exact ⟨by rw [h.1]; rfl, by rw [h.2]; rfl⟩

/-! ### Tree overview vs. skipped files (C3) -/

/-- Counterexample to claim C3 as stated: a file skipped for size is
still rendered into the tree overview.  With a 200-byte `r/big.rs`
against a 100-byte limit the pack records the skip, yet the overview —
built from `treeInputPaths`, which keeps every under-root path — shows
`big.rs`. -/
theorem C3_counterexample :
    (build_pack_content_with_limit (fun _ => 0) fsBig ["r/big.rs"] "r" "" .Plain
        (some 100)).skipped_files.map SkippedFile.path = ["big.rs"]
  ∧ treeInputPaths "r" ["r/big.rs"] = ["big.rs"]
  ∧ containsStr "big.rs" (build_tree_overview (treeInputPaths "r" ["r/big.rs"]) .Plain)
      = true := by
  refine ⟨by decide, by decide, ?_⟩
  have hov : build_tree_overview (treeInputPaths "r" ["r/big.rs"]) .Plain
      = "# File Tree:\n#   big.rs\n#\n\n" := by
    have h1 : treeInputPaths "r" ["r/big.rs"] = ["big.rs"] := by decide
    rw [h1]
    simp [build_tree_overview, buildTreeN, insertPath, putChild, alistGet, TreeN.children,
      renderEntries, concatAll]
  rw [hov]
  decide

/-- Amended claim C3: the tree overview is rendered from the relative
paths of all requested files that are under the root — including files
recorded in `skipped_files`; only paths outside the root are omitted.
The pack output's content is exactly header, then this overview, then
the body, then the footer. -/
theorem C3_amended_tree_from_all_requested (tok : String → Nat) (fs : FS)
    (paths : List String) (project_path project_type : String) (format : ExportFormat)
    (max_file_bytes : Option Nat) :
    (build_pack_content_with_limit tok fs paths project_path project_type format
        max_file_bytes).content
      = build_header (extract_metadata fs project_path project_type)
          (paths.foldl (processOne format fs project_path
            (max_file_bytes.getD DEFAULT_MAX_FILE_BYTES)) ⟨"", 0, 0, []⟩).file_count
          (tok (paths.foldl (processOne format fs project_path
            (max_file_bytes.getD DEFAULT_MAX_FILE_BYTES)) ⟨"", 0, 0, []⟩).body)
          format
        ++ build_tree_overview (treeInputPaths project_path paths) format
        ++ (paths.foldl (processOne format fs project_path
            (max_file_bytes.getD DEFAULT_MAX_FILE_BYTES)) ⟨"", 0, 0, []⟩).body
        ++ build_footer format
  ∧ (∀ p ∈ paths, ∀ r, stripRoot project_path p = some r →
      normSlash r ∈ treeInputPaths project_path paths) := by
  refine ⟨rfl, ?_⟩
  intro p hp r hr
  unfold treeInputPaths
  rw [List.mem_filterMap]
  exact ⟨p, hp, by rw [hr]; rfl⟩

/-- Witness for the amended C3 at a concrete input: the size-skipped
`r/big.rs` is present in the tree-overview input. -/
theorem C3_amended_tree_from_all_requested_witness :
    "big.rs" ∈ treeInputPaths "r" ["r/big.rs"] := by
  have h := (C3_amended_tree_from_all_requested (fun _ => 0) fsBig ["r/big.rs"] "r" ""
    .Plain (some 100)).2 "r/big.rs" (by decide) "big.rs" (by decide)
  have e : normSlash "big.rs" = "big.rs" := by decide
  rw [e] at h
  exact h

/-! ### Filesystem-agreement congruence (C7) -/

/-- `find?` only looks at the predicate's values on the list. -/
theorem find?_congr {α : Type} (p q : α → Bool) (l : List α)
    (h : ∀ a ∈ l, p a = q a) : l.find? p = l.find? q := by
  induction l with
  | nil => rfl
  | cons a as ih =>
    rw [List.find?_cons, List.find?_cons, h a (List.mem_cons_self a as),
      ih (fun b hb => h b (List.mem_cons_of_mem a hb))]

/-- `nvmrcRuntime` only reads `.nvmrc` and `.node-version`. -/
theorem nvmrcRuntime_agree (fs1 fs2 : FS) (root : String)
    (h1 : fs1.readToString (joinPath root ".nvmrc") = fs2.readToString (joinPath root ".nvmrc"))
    (h2 : fs1.readToString (joinPath root ".node-version")
        = fs2.readToString (joinPath root ".node-version")) :
    nvmrcRuntime fs1 root = nvmrcRuntime fs2 root := by
  unfold nvmrcRuntime
  rw [h1, h2]

/-- The Node-family reader only consults its four probe files. -/
theorem extract_package_json_agree (fs1 fs2 : FS) (root : String) (m : ProjectMetadata)
    (hp : fs1.readJson (joinPath root "package.json")
        = fs2.readJson (joinPath root "package.json"))
    (hn : nvmrcRuntime fs1 root = nvmrcRuntime fs2 root)
    (ht : fs1.readJson (joinPath root "tsconfig.json")
        = fs2.readJson (joinPath root "tsconfig.json")) :
    extract_package_json fs1 root m = extract_package_json fs2 root m := by
  unfold extract_package_json pkgTsStep pkgNvmStep
  rw [hp, hn, ht]

/-- The Rust reader only consults `Cargo.toml`. -/
theorem extract_cargo_toml_agree (fs1 fs2 : FS) (root : String) (m : ProjectMetadata)
    (h : fs1.readToml (joinPath root "Cargo.toml") = fs2.readToml (joinPath root "Cargo.toml")) :
    extract_cargo_toml fs1 root m = extract_cargo_toml fs2 root m := by
  unfold extract_cargo_toml
  rw [h]

/-- The Python reader only consults its probe files. -/
theorem extract_python_meta_agree (fs1 fs2 : FS) (root : String) (m : ProjectMetadata)
    (h1 : fs1.readToml (joinPath root "pyproject.toml")
        = fs2.readToml (joinPath root "pyproject.toml"))
    (h2 : fs1.readToString (joinPath root "requirements.txt")
        = fs2.readToString (joinPath root "requirements.txt"))
    (h3 : fs1.readToString (joinPath root ".python-version")
        = fs2.readToString (joinPath root ".python-version"))
    (h4 : ∀ e ∈ ["main.py", "app.py", "manage.py", "run.py"],
        fs1.pathExists (joinPath root e) = fs2.pathExists (joinPath root e)) :
    extract_python_meta fs1 root m = extract_python_meta fs2 root m := by
  unfold extract_python_meta
  rw [h1, h2, h3, find?_congr _ _ _ h4]

/-- The Go reader only consults `go.mod` and `main.go`. -/
theorem extract_go_mod_agree (fs1 fs2 : FS) (root : String) (m : ProjectMetadata)
    (h1 : fs1.readToString (joinPath root "go.mod") = fs2.readToString (joinPath root "go.mod"))
    (h2 : fs1.pathExists (joinPath root "main.go") = fs2.pathExists (joinPath root "main.go")) :
    extract_go_mod fs1 root m = extract_go_mod fs2 root m := by
  unfold extract_go_mod
  rw [h1, h2]

/-- The Flutter reader only consults `pubspec.yaml` and
`lib/main.dart`. -/
theorem extract_pubspec_yaml_agree (fs1 fs2 : FS) (root : String) (m : ProjectMetadata)
    (h1 : fs1.readToString (joinPath root "pubspec.yaml")
        = fs2.readToString (joinPath root "pubspec.yaml"))
    (h2 : fs1.pathExists (joinPath root "lib/main.dart")
        = fs2.pathExists (joinPath root "lib/main.dart")) :
    extract_pubspec_yaml fs1 root m = extract_pubspec_yaml fs2 root m := by
  unfold extract_pubspec_yaml
  rw [h1, h2]

/-- The Maven reader only consults `pom.xml`. -/
theorem extract_pom_xml_agree (fs1 fs2 : FS) (root : String) (m : ProjectMetadata)
    (h : fs1.readToString (joinPath root "pom.xml") = fs2.readToString (joinPath root "pom.xml")) :
    extract_pom_xml fs1 root m = extract_pom_xml fs2 root m := by
  unfold extract_pom_xml
  rw [h]

/-- The Gradle reader only consults the two settings files. -/
theorem extract_gradle_meta_agree (fs1 fs2 : FS) (root : String) (m : ProjectMetadata)
    (h1 : fs1.readToString (joinPath root "settings.gradle.kts")
        = fs2.readToString (joinPath root "settings.gradle.kts"))
    (h2 : fs1.readToString (joinPath root "settings.gradle")
        = fs2.readToString (joinPath root "settings.gradle")) :
    extract_gradle_meta fs1 root m = extract_gradle_meta fs2 root m := by
  unfold extract_gradle_meta
  rw [h1, h2]

set_option maxHeartbeats 2000000 in
/-- Metadata extraction is determined by the filesystem's answers on the
probe files. -/
theorem extract_metadata_agree (fs1 fs2 : FS) (root project_type : String)
    (h : ∀ q ∈ metaProbes root, FS.agreeAt fs1 fs2 q) :
    extract_metadata fs1 root project_type = extract_metadata fs2 root project_type := by
  have hex : ∀ q ∈ metaProbes root, fs1.pathExists q = fs2.pathExists q :=
    fun q hq => (h q hq).1
  have hread : ∀ q ∈ metaProbes root, fs1.readToString q = fs2.readToString q :=
    fun q hq => (h q hq).2.2.2.2.1
  have hjson : ∀ q ∈ metaProbes root, fs1.readJson q = fs2.readJson q :=
    fun q hq => (h q hq).2.2.2.2.2.1
  have htoml : ∀ q ∈ metaProbes root, fs1.readToml q = fs2.readToml q :=
    fun q hq => (h q hq).2.2.2.2.2.2
  simp only [extract_metadata]
  split_ifs <;>
    first
      | rfl
      | exact extract_package_json_agree fs1 fs2 root _
          (hjson _ (by simp [metaProbes]))
          (nvmrcRuntime_agree fs1 fs2 root (hread _ (by simp [metaProbes]))
            (hread _ (by simp [metaProbes])))
          (hjson _ (by simp [metaProbes]))
      | exact extract_python_meta_agree fs1 fs2 root _
          (htoml _ (by simp [metaProbes])) (hread _ (by simp [metaProbes]))
          (hread _ (by simp [metaProbes]))
          (by
            intro e he
            simp only [List.mem_cons, List.mem_singleton, List.not_mem_nil, or_false] at he
            rcases he with rfl | rfl | rfl | rfl <;> exact hex _ (by simp [metaProbes]))
      | exact extract_cargo_toml_agree fs1 fs2 root _ (htoml _ (by simp [metaProbes]))
      | exact extract_go_mod_agree fs1 fs2 root _ (hread _ (by simp [metaProbes]))
          (hex _ (by simp [metaProbes]))
      | exact extract_pubspec_yaml_agree fs1 fs2 root _ (hread _ (by simp [metaProbes]))
          (hex _ (by simp [metaProbes]))
      | exact extract_pom_xml_agree fs1 fs2 root _ (hread _ (by simp [metaProbes]))
      | exact extract_gradle_meta_agree fs1 fs2 root _ (hread _ (by simp [metaProbes]))
          (hread _ (by simp [metaProbes]))

/-- One pack-loop iteration is determined by the filesystem's answers at
the processed path. -/
theorem processOne_agree (format : ExportFormat) (fs1 fs2 : FS) (root : String)
    (limit : Nat) (st : PackSt) (p : String)
    (hstat : fs1.stat p = fs2.stat p)
    (hread : fs1.readToString p = fs2.readToString p) :
    processOne format fs1 root limit st p = processOne format fs2 root limit st p := by
  unfold processOne
  rw [hstat, hread]

/-- The pack loop is determined by the filesystem's answers at the
listed paths. -/
theorem foldPack_agree (format : ExportFormat) (fs1 fs2 : FS) (root : String)
    (limit : Nat) (paths : List String)
    (h : ∀ p ∈ paths, fs1.stat p = fs2.stat p ∧ fs1.readToString p = fs2.readToString p) :
    ∀ st : PackSt,
      paths.foldl (processOne format fs1 root limit) st
        = paths.foldl (processOne format fs2 root limit) st := by
  induction paths with
  | nil => intro st; rfl
  | cons p rest ih =>
    intro st
    simp only [List.foldl_cons]
    rw [processOne_agree format fs1 fs2 root limit st p
      (h p (List.mem_cons_self p rest)).1 (h p (List.mem_cons_self p rest)).2]
    exact ih (fun q hq => h q (List.mem_cons_of_mem p hq)) _

/-- The whole basic pack result is determined by the filesystem's
answers at the listed paths and the metadata probe files. -/
theorem build_pack_agree (tok : String → Nat) (fs1 fs2 : FS) (paths : List String)
    (project_path project_type : String) (format : ExportFormat)
    (max_file_bytes : Option Nat)
    (hpaths : ∀ p ∈ paths, FS.agreeAt fs1 fs2 p)
    (hmeta : ∀ q ∈ metaProbes project_path, FS.agreeAt fs1 fs2 q) :
    build_pack_content_with_limit tok fs1 paths project_path project_type format max_file_bytes
      = build_pack_content_with_limit tok fs2 paths project_path project_type format
          max_file_bytes := by
  simp only [build_pack_content_with_limit]
  rw [extract_metadata_agree fs1 fs2 project_path project_type hmeta,
    foldPack_agree format fs1 fs2 project_path (max_file_bytes.getD DEFAULT_MAX_FILE_BYTES)
      paths (fun p hp => ⟨(hpaths p hp).2.2.2.1, (hpaths p hp).2.2.2.2.1⟩) ⟨"", 0, 0, []⟩]

/-- Amended claim C7: the pack operation is deterministic in its actual
inputs — two calls with the same path list, root, ecosystem label,
format, size limit, diff *sequence* and instruction produce identical
results whenever the filesystem gives the same answers for the listed
paths and the metadata probe files.  (As the counterexample shows, for
the extended variant the diff map's contents alone do not determine the
output: the rendering follows the `HashMap` iteration order.) -/
theorem C7_amended_deterministic (tok : String → Nat) (fs1 fs2 : FS) (paths : List String)
    (project_path project_type : String) (format : ExportFormat)
    (max_file_bytes : Option Nat) (diffs : Option (List (String × String)))
    (instruction : Option String)
    (hpaths : ∀ p ∈ paths, FS.agreeAt fs1 fs2 p)
    (hmeta : ∀ q ∈ metaProbes project_path, FS.agreeAt fs1 fs2 q) :
    build_pack_content_extended tok fs1 paths project_path project_type format
        max_file_bytes diffs instruction
      = build_pack_content_extended tok fs2 paths project_path project_type format
        max_file_bytes diffs instruction := by
  unfold build_pack_content_extended
  rw [build_pack_agree tok fs1 fs2 paths project_path project_type format max_file_bytes
    hpaths hmeta]

/-- Witness for the amended C7: two filesystems that differ at an
unrelated path give byte-identical extended pack results. -/
theorem C7_amended_deterministic_witness :
    build_pack_content_extended (fun _ => 0) fsSmall ["r/a.rs"] "r" "" .Plain none none none
      = build_pack_content_extended (fun _ => 0) fsSmall' ["r/a.rs"] "r" "" .Plain
          none none none := by
  apply C7_amended_deterministic
  · intro p hp
    have hp' : p = "r/a.rs" := by simpa using hp
    subst hp'
    exact ⟨rfl, rfl, rfl, rfl, rfl, rfl, rfl⟩
  · intro q hq
    fin_cases hq <;> exact ⟨rfl, rfl, rfl, rfl, rfl, rfl, rfl⟩

set_option maxRecDepth 40000 in
/-- Counterexample to claim C7 as stated: the extended pack's output is
not a function of the diff map's contents.  Two diff maps equal as maps
(a permutation of the same two entries, i.e. the same key-value
associations) yield different content, because the diff section follows
the `HashMap` iteration order, which the map's contents do not
determine. -/
theorem C7_counterexample :
    ([("a", "x"), ("b", "y")] : List (String × String)).Perm [("b", "y"), ("a", "x")]
  ∧ (build_pack_content_extended (fun _ => 0) fsEmpty [] "r" "" .Plain none
        (some [("a", "x"), ("b", "y")]) none).content
      ≠ (build_pack_content_extended (fun _ => 0) fsEmpty [] "r" "" .Plain none
        (some [("b", "y"), ("a", "x")]) none).content := by
  constructor
  · decide
  · decide

/-! ### Scanner tree invariants (C6 support) -/

theorem mem_insertSorted {α : Type} (lt : α → α → Bool) (x a : α) (l : List α) :
    a ∈ insertSorted lt x l ↔ a = x ∨ a ∈ l := by
  induction l with
  | nil => simp [insertSorted]
  | cons y ys ih =>
    simp only [insertSorted]
    split
    · simp [ih]; tauto
    · simp

theorem mem_insortBy {α : Type} (lt : α → α → Bool) (a : α) (l : List α) :
    a ∈ insortBy lt l ↔ a ∈ l := by
  induction l with
  | nil => simp [insortBy]
  | cons x xs ih => simp [insortBy, mem_insertSorted, ih]

theorem insertSorted_ne_nil {α : Type} (lt : α → α → Bool) (x : α) (l : List α) :
    insertSorted lt x l ≠ [] := by
  cases l with
  | nil => simp [insertSorted]
  | cons y ys => simp only [insertSorted]; split <;> simp

theorem insortBy_nil_iff {α : Type} (lt : α → α → Bool) (l : List α) :
    insortBy lt l = [] ↔ l = [] := by
  cases l with
  | nil => simp [insortBy]
  | cons x xs => simp [insortBy, insertSorted_ne_nil]

theorem path_decomp (root p : List String) (hpre : root.isPrefixOf p = true)
    (hne : p ≠ root) : p = parentOf root p ++ [p.getLastD ""] := by
  rcases List.eq_nil_or_concat p with hp | ⟨q, a, hqa⟩
  · subst hp
    cases root with
    | nil => exact absurd rfl hne
    | cons r rs => simp [List.isPrefixOf] at hpre
  · rw [List.concat_eq_append] at hqa
    subst hqa
    rw [parentOf, List.dropLast_concat, List.getLastD_concat]
    by_cases hq : q.isEmpty
    · have hq' : q = [] := List.isEmpty_iff.mp hq
      subst hq'
      simp only [List.isEmpty_nil, if_true, List.nil_append]
      cases root with
      | nil => rfl
      | cons r rs =>
        cases rs with
        | nil =>
          have : r = a := by simpa [List.isPrefixOf] using hpre
          subst this
          exact absurd rfl hne
        | cons r2 rs2 => simp [List.isPrefixOf] at hpre
    · simp [hq]

theorem getLastD_default_irrel {α : Type} (l : List α) (h : l ≠ []) (x y : α) :
    l.getLastD x = l.getLastD y := by
  cases l with
  | nil => exact absurd rfl h
  | cons b bs => rw [List.getLastD_cons, List.getLastD_cons]

theorem mem_ensureKey (m : MapFN) (k : List String)
    (kv : List String × List FileNode) (h : kv ∈ ensureKey m k) :
    kv ∈ m ∨ kv = (k, []) := by
  induction m with
  | nil =>
    right
    simpa [ensureKey] using h
  | cons p rest ih =>
    obtain ⟨k', v⟩ := p
    simp only [ensureKey] at h
    split at h
    · exact Or.inl h
    · rcases List.mem_cons.mp h with h1 | h1
      · exact Or.inl (h1 ▸ List.mem_cons_self _ _)
      · rcases ih h1 with h2 | h2
        · exact Or.inl (List.mem_cons_of_mem _ h2)
        · exact Or.inr h2

theorem removeKey_cons_pos (k k' : List String) (v : List FileNode) (rest : MapFN)
    (h : (k' == k) = true) : removeKey ((k', v) :: rest) k = (v, rest) := by
  simp [removeKey, h]

theorem removeKey_cons_neg (k k' : List String) (v : List FileNode) (rest : MapFN)
    (h : (k' == k) = false) :
    removeKey ((k', v) :: rest) k
      = ((removeKey rest k).1, (k', v) :: (removeKey rest k).2) := by
  simp [removeKey, h]

theorem removeKey_cases (k : List String) :
    ∀ m : MapFN, ((removeKey m k).1 = [] ∨ (k, (removeKey m k).1) ∈ m)
      ∧ ∀ kv ∈ (removeKey m k).2, kv ∈ m := by
  intro m
  induction m with
  | nil => exact ⟨Or.inl rfl, by simp [removeKey]⟩
  | cons p rest ih =>
    obtain ⟨k', v⟩ := p
    by_cases heq : (k' == k) = true
    · rw [removeKey_cons_pos k k' v rest heq]
      have hk : k' = k := eq_of_beq heq
      subst hk
      exact ⟨Or.inr (List.mem_cons_self _ _), fun kv h => List.mem_cons_of_mem _ h⟩
    · rw [removeKey_cons_neg k k' v rest (by simpa using heq)]
      refine ⟨?_, ?_⟩
      · rcases ih.1 with h | h
        · exact Or.inl h
        · exact Or.inr (List.mem_cons_of_mem _ h)
      · intro kv h
        rcases List.mem_cons.mp h with h1 | h1
        · exact h1 ▸ List.mem_cons_self _ _
        · exact List.mem_cons_of_mem _ (ih.2 kv h1)

theorem mapInv_ensureKey {ex : List String} {m : MapFN} (k : List String)
    (h : MapInv ex m) : MapInv ex (ensureKey m k) := by
  intro kv hkv nd hnd
  rcases mem_ensureKey m k kv hkv with hm | rfl
  · exact h kv hm nd hnd
  · exact absurd hnd (List.not_mem_nil nd)

theorem mapInv_appendAt (ex : List String) (k : List String) (nd0 : FileNode)
    (hg : GoodN ex nd0) (hp : nd0.path = k ++ [nd0.name]) :
    ∀ m : MapFN, MapInv ex m → MapInv ex (appendAt m k nd0) := by
  intro m
  induction m with
  | nil =>
    intro _ kv hkv nd hnd
    have hkv' : kv = (k, [nd0]) := by simpa [appendAt] using hkv
    subst hkv'
    have : nd = nd0 := by simpa using hnd
    subst this
    exact ⟨hg, hp⟩
  | cons p rest ih =>
    obtain ⟨k', v⟩ := p
    intro h kv hkv nd hnd
    simp only [appendAt] at hkv
    split at hkv
    case isTrue heq =>
      rcases List.mem_cons.mp hkv with rfl | hkv'
      · rcases List.mem_append.mp hnd with h1 | h1
        · exact h (k', v) (List.mem_cons_self _ _) nd h1
        · have : nd = nd0 := by simpa using h1
          subst this
          have hk : k' = k := eq_of_beq heq
          subst hk
          exact ⟨hg, hp⟩
      · exact h kv (List.mem_cons_of_mem _ hkv') nd hnd
    case isFalse =>
      rcases List.mem_cons.mp hkv with rfl | hkv'
      · exact h (k', v) (List.mem_cons_self _ _) nd hnd
      · exact ih (fun kv2 h2 => h kv2 (List.mem_cons_of_mem _ h2)) kv hkv' nd hnd

theorem goodN_inv {ex : List String} {n : FileNode} (h : GoodN ex n) :
    (n.is_dir = false → n.children = [])
    ∧ (n.is_dir = true → is_excluded_dir n.name ex = false ∧ n.children ≠ [])
    ∧ (∀ c ∈ n.children, c.path = n.path ++ [c.name])
    ∧ (∀ c ∈ n.children, GoodN ex c) := by
  cases h with
  | mk n h1 h2 h3 h4 => exact ⟨h1, h2, h3, h4⟩

theorem procItem_inv (root ex ext : List String) (st : BState) (it : WalkItem)
    (hpre : root.isPrefixOf it.path = true)
    (hm : MapInv ex st.dirChildren) (hs : SeenInv root ex st.seenDirs) :
    MapInv ex (procItem root ex ext st it).dirChildren
      ∧ SeenInv root ex (procItem root ex ext st it).seenDirs := by
  simp only [procItem]
  by_cases h0 : (it.path == root) = true
  · rw [if_pos h0]; exact ⟨hm, hs⟩
  · rw [if_neg h0]
    have hner : it.path ≠ root := fun he => h0 (by simp [he])
    by_cases hd : it.is_dir = true
    · rw [if_pos hd]
      by_cases hx : is_excluded_dir (it.path.getLastD "") ex = true
      · rw [if_pos hx]; exact ⟨hm, hs⟩
      · rw [if_neg hx]
        refine ⟨mapInv_ensureKey _ hm, ?_⟩
        intro d hdm
        rcases List.mem_append.mp hdm with h1 | h1
        · exact hs d h1
        · have hde : d = it.path := by simpa using h1
          subst hde
          exact ⟨hpre, hner, by simpa using hx⟩
    · rw [if_neg hd]
      by_cases hsf : is_source_file (it.path.getLastD "") ext = true
      · rw [if_neg (show ¬(!(is_source_file (it.path.getLastD "") ext)) = true by rw [hsf]; decide)]
        refine ⟨?_, hs⟩
        refine mapInv_appendAt ex _ _ ?_ ?_ st.dirChildren hm
        · refine GoodN.mk _ (fun _ => rfl) (fun h => absurd h (by simp)) ?_ ?_
          · intro c hc; exact absurd hc (List.not_mem_nil c)
          · intro c hc; exact absurd hc (List.not_mem_nil c)
        · exact path_decomp root it.path hpre hner
      · rw [if_pos (show (!(is_source_file (it.path.getLastD "") ext)) = true by
            simp only [Bool.not_eq_true] at hsf
            rw [hsf]
            decide)]
        exact ⟨hm, hs⟩

theorem foldItems_inv (root ex ext : List String) :
    ∀ (items : List WalkItem) (st : BState),
      (∀ it ∈ items, root.isPrefixOf it.path = true) →
      MapInv ex st.dirChildren → SeenInv root ex st.seenDirs →
      MapInv ex ((items.foldl (procItem root ex ext) st).dirChildren)
        ∧ SeenInv root ex ((items.foldl (procItem root ex ext) st).seenDirs) := by
  intro items
  induction items with
  | nil => intro st _ hm hs; exact ⟨hm, hs⟩
  | cons it its ih =>
    intro st hw hm hs
    have h1 := procItem_inv root ex ext st it (hw it (List.mem_cons_self _ _)) hm hs
    exact ih _ (fun x hx => hw x (List.mem_cons_of_mem _ hx)) h1.1 h1.2

theorem aggStep_inv (root ex : List String) (dc : MapFN) (d : List String)
    (hm : MapInv ex dc) (hpre : root.isPrefixOf d = true) (hne : d ≠ root)
    (hx : is_excluded_dir (d.getLastD "") ex = false) :
    MapInv ex (aggStep root dc d) := by
  have hsub : MapInv ex (removeKey dc d).2 :=
    fun kv hkv nd hnd => hm kv ((removeKey_cases d dc).2 kv hkv) nd hnd
  have hch : ∀ nd ∈ (removeKey dc d).1, GoodN ex nd ∧ nd.path = d ++ [nd.name] := by
    rcases (removeKey_cases d dc).1 with h | h
    · intro nd hnd; rw [h] at hnd; exact absurd hnd (List.not_mem_nil nd)
    · intro nd hnd; exact hm (d, (removeKey dc d).1) h nd hnd
  simp only [aggStep]
  by_cases hc : (removeKey dc d).1.isEmpty = true
  · rw [if_pos hc]; exact hsub
  · rw [if_neg hc]
    refine mapInv_appendAt ex _ _ ?_ ?_ _ hsub
    · refine GoodN.mk _ (fun h => absurd h (by simp)) ?_ ?_ ?_
      · intro _
        refine ⟨hx, ?_⟩
        intro h0
        have h0' : (removeKey dc d).1 = [] := h0
        exact hc (by rw [h0']; rfl)
      · intro c hcm; exact (hch c hcm).2
      · intro c hcm; exact (hch c hcm).1
    · exact path_decomp root d hpre hne

theorem foldAgg_inv (root ex : List String) :
    ∀ (dirs : List (List String)) (dc : MapFN),
      SeenInv root ex dirs → MapInv ex dc →
      MapInv ex (dirs.foldl (aggStep root) dc) := by
  intro dirs
  induction dirs with
  | nil => intro dc _ hm; exact hm
  | cons d ds ih =>
    intro dc hs hm
    obtain ⟨hpre, hne, hx⟩ := hs d (List.mem_cons_self _ _)
    exact ih _ (fun x hx2 => hs x (List.mem_cons_of_mem _ hx2))
      (aggStep_inv root ex dc d hm hpre hne hx)

theorem sort_tree_fields (n : FileNode) :
    (sort_tree n).name = n.name ∧ (sort_tree n).path = n.path
      ∧ (sort_tree n).is_dir = n.is_dir := by
  cases n
  rw [sort_tree]
  exact ⟨rfl, rfl, rfl⟩

theorem mem_sort_tree_children (nm : String) (p : List String) (d : Bool)
    (cs : List FileNode) (ch : Bool) (c : FileNode)
    (h : c ∈ (sort_tree ⟨nm, p, d, cs, ch⟩).children) :
    ∃ c0 ∈ cs, c = (if c0.is_dir then sort_tree c0 else c0) := by
  rw [sort_tree] at h
  have h' : c ∈ insortBy nodeCmpLt
      (cs.attach.map (fun c0 => if c0.1.is_dir then sort_tree c0.1 else c0.1)) := h
  rw [mem_insortBy] at h'
  rcases List.mem_map.mp h' with ⟨c0, hc0, hce⟩
  exact ⟨c0.1, c0.2, hce.symm⟩

theorem insort_map_ne_nil (cs : List FileNode) (h : cs ≠ [])
    (f : {x // x ∈ cs} → FileNode) :
    insortBy nodeCmpLt (cs.attach.map f) ≠ [] := by
  intro h1
  rw [insortBy_nil_iff] at h1
  have h2 : cs.length = 0 := by
    have h3 := congrArg List.length h1
    simpa using h3
  exact h (List.length_eq_zero.mp h2)

theorem goodN_sort_tree (ex : List String) :
    ∀ n : FileNode, GoodN ex n → GoodN ex (sort_tree n) := by
  intro n
  induction n using sort_tree.induct
  next nm p d cs ch ih =>
    intro hg
    obtain ⟨hfile, hdir, hcoh, hch⟩ := goodN_inv hg
    rw [sort_tree]
    refine GoodN.mk _ ?_ ?_ ?_ ?_
    · intro h
      have hcs : cs = [] := hfile h
      subst hcs
      rfl
    · intro h
      obtain ⟨hx, hne⟩ := hdir h
      exact ⟨hx, insort_map_ne_nil cs hne _⟩
    · intro c hcm
      have h' : c ∈ insortBy nodeCmpLt
          (cs.attach.map (fun c0 => if c0.1.is_dir then sort_tree c0.1 else c0.1)) := hcm
      rw [mem_insortBy] at h'
      rcases List.mem_map.mp h' with ⟨c0, hc0, hce⟩
      by_cases hcd : c0.1.is_dir = true
      · rw [if_pos hcd] at hce
        subst hce
        rw [(sort_tree_fields c0.1).2.1, (sort_tree_fields c0.1).1]
        exact hcoh c0.1 c0.2
      · rw [if_neg hcd] at hce
        subst hce
        exact hcoh c0.1 c0.2
    · intro c hcm
      have h' : c ∈ insortBy nodeCmpLt
          (cs.attach.map (fun c0 => if c0.1.is_dir then sort_tree c0.1 else c0.1)) := hcm
      rw [mem_insortBy] at h'
      rcases List.mem_map.mp h' with ⟨c0, hc0, hce⟩
      by_cases hcd : c0.1.is_dir = true
      · rw [if_pos hcd] at hce
        subst hce
        exact ih c0 (hch c0.1 c0.2)
      · rw [if_neg hcd] at hce
        subst hce
        exact hch c0.1 c0.2

theorem goodN_subnode (ex : List String) (m c : FileNode) (hsub : Subnode m c) :
    ∀ rootp : List String, GoodN ex c → c.path = rootp ++ [c.name] →
      (m.is_dir = false → m.children = [])
      ∧ (m.is_dir = true → is_excluded_dir m.name ex = false ∧ m.children ≠ [])
      ∧ ∃ seg : List String, seg ≠ [] ∧ m.path = rootp ++ seg
          ∧ seg.getLastD "" = m.name
          ∧ ∀ s ∈ seg.dropLast, is_excluded_dir s ex = false := by
  induction hsub with
  | refl =>
    intro rootp hg hpath
    obtain ⟨h1, h2, _, _⟩ := goodN_inv hg
    exact ⟨h1, h2, [m.name], by simp, hpath, by simp, by simp⟩
  | @child c' n' hmem hsub' ih =>
    intro rootp hg hpath
    obtain ⟨hfile, hdir, hcoh, hch⟩ := goodN_inv hg
    have hdirT : n'.is_dir = true := by
      cases hd : n'.is_dir
      · rw [hfile hd] at hmem
        exact absurd hmem (List.not_mem_nil c')
      · rfl
    obtain ⟨hx, _⟩ := hdir hdirT
    have hgc := hch c' hmem
    have hpc : c'.path = (rootp ++ [n'.name]) ++ [c'.name] := by
      rw [hcoh c' hmem, hpath]
    obtain ⟨h1, h2, seg, hsegne, hsegpath, hseglast, hsegdrop⟩ := ih (rootp ++ [n'.name]) hgc hpc
    refine ⟨h1, h2, n'.name :: seg, by simp, ?_, ?_, ?_⟩
    · rw [hsegpath, List.append_assoc]
      rfl
    · rw [List.getLastD_cons]
      rw [getLastD_default_irrel seg hsegne n'.name ""]
      exact hseglast
    · intro s hs
      rcases seg with _ | ⟨b, bs⟩
      · exact absurd rfl hsegne
      · have hdle : (n'.name :: b :: bs).dropLast = n'.name :: (b :: bs).dropLast := rfl
        rw [hdle] at hs
        rcases List.mem_cons.mp hs with rfl | hs'
        · exact hx
        · exact hsegdrop s hs'

theorem removeKey_root_good (ex root : List String) (dc : MapFN)
    (hmap : MapInv ex dc) :
    ∀ nd ∈ (removeKey dc root).1, GoodN ex nd ∧ nd.path = root ++ [nd.name] := by
  intro nd hnd
  rcases (removeKey_cases root dc).1 with h | h
  · rw [h] at hnd
    exact absurd hnd (List.not_mem_nil nd)
  · exact hmap _ h nd hnd

theorem built_children_good (root ex : List String) (rc : List FileNode) (nm : String)
    (hrc : ∀ nd ∈ rc, GoodN ex nd ∧ nd.path = root ++ [nd.name]) :
    ∀ c ∈ (sort_tree ⟨nm, root, true, rc, true⟩).children, ∀ m : FileNode,
      Subnode m c →
        (m.is_dir = false → m.children = [])
        ∧ (m.is_dir = true → is_excluded_dir m.name ex = false ∧ m.children ≠ [])
        ∧ ∃ seg : List String, seg ≠ [] ∧ m.path = root ++ seg
            ∧ seg.getLastD "" = m.name
            ∧ ∀ s ∈ seg.dropLast, is_excluded_dir s ex = false := by
  intro c hc m hm
  rcases mem_sort_tree_children nm root true rc true c hc with ⟨c0, hc0, hce⟩
  obtain ⟨hg0, hp0⟩ := hrc c0 hc0
  by_cases hd0 : c0.is_dir = true
  · rw [if_pos hd0] at hce
    subst hce
    refine goodN_subnode ex m _ hm root (goodN_sort_tree ex c0 hg0) ?_
    rw [(sort_tree_fields c0).2.1, (sort_tree_fields c0).1]
    exact hp0
  · rw [if_neg hd0] at hce
    subst hce
    exact goodN_subnode ex m c hm root hg0 hp0

/-- **C6 (amended).** Every node strictly below the root of a built file
tree is well-formed: file nodes are childless; directory nodes have a
non-excluded name and at least one child; and each node's path extends
the scan root by the non-empty segment of names leading to it, none of
whose intermediate segments is an excluded directory name.  (The root
node itself is exempt: it is rendered even when childless and its own
name is never tested against the exclusion lists.)  The hypothesis says
every walker entry lies under the root, which the `ignore` walker
guarantees. -/
theorem C6_amended (root : List String) (items : List WalkItem) (ex ext : List String)
    (hw : ∀ it ∈ items, root.isPrefixOf it.path = true) :
    ∀ c ∈ (build_file_tree root items ex ext).children, ∀ m : FileNode, Subnode m c →
      (m.is_dir = false → m.children = [])
      ∧ (m.is_dir = true → is_excluded_dir m.name ex = false ∧ m.children ≠ [])
      ∧ ∃ seg : List String, seg ≠ [] ∧ m.path = root ++ seg
          ∧ seg.getLastD "" = m.name
          ∧ ∀ s ∈ seg.dropLast, is_excluded_dir s ex = false := by
  intro c hc m hm
  simp only [build_file_tree] at hc
  have hst := foldItems_inv root ex ext items ⟨[], []⟩ hw
      (fun kv h => absurd h (List.not_mem_nil kv))
      (fun d h => absurd h (List.not_mem_nil d))
  refine built_children_good root ex _ _ ?_ c hc m hm
  exact removeKey_root_good ex root _
    (foldAgg_inv root ex _ _
      (fun d hd => hst.2 d ((mem_insortBy _ d _).mp hd)) hst.1)

/-- **C6 (witness).** A two-entry walk (a directory and a source file in
it) under root `r`: every node below the root satisfies the amended
invariants. -/
theorem C6_amended_witness :
    (∀ it ∈ ([⟨["r", "src"], true⟩, ⟨["r", "src", "main.rs"], false⟩] : List WalkItem),
        (["r"] : List String).isPrefixOf it.path = true)
    ∧ (∀ c ∈ (build_file_tree ["r"]
          [⟨["r", "src"], true⟩, ⟨["r", "src", "main.rs"], false⟩] [] []).children,
        ∀ m : FileNode, Subnode m c →
          (m.is_dir = false → m.children = [])
          ∧ (m.is_dir = true → is_excluded_dir m.name [] = false ∧ m.children ≠ [])
          ∧ ∃ seg : List String, seg ≠ [] ∧ m.path = ["r"] ++ seg
              ∧ seg.getLastD "" = m.name
              ∧ ∀ s ∈ seg.dropLast, is_excluded_dir s [] = false) :=
  ⟨by decide,
   C6_amended ["r"] [⟨["r", "src"], true⟩, ⟨["r", "src", "main.rs"], false⟩] [] []
     (by decide)⟩

/-- **C6 (counterexample).** Scanning a directory named `node_modules`
that yields no entries builds a tree whose root node is a directory node
with no children and with a name matching the builtin denylist — so a
directory node with an excluded name and no qualifying descendant does
appear in a built tree, contrary to the unrestricted claim. -/
theorem C6_counterexample :
    Subnode (build_file_tree ["node_modules"] [] [] [])
        (build_file_tree ["node_modules"] [] [] [])
    ∧ (build_file_tree ["node_modules"] [] [] []).is_dir = true
    ∧ (build_file_tree ["node_modules"] [] [] []).children = []
    ∧ is_excluded_dir (build_file_tree ["node_modules"] [] [] []).name [] = true := by
  have h : build_file_tree ["node_modules"] [] [] []
      = ⟨"node_modules", ["node_modules"], true, [], true⟩ := by
    simp [build_file_tree, insortBy, removeKey, sort_tree]
  rw [h]
  exact ⟨Subnode.refl _, rfl, rfl, by decide⟩

/-! ### Substring counting (C8 support) -/

theorem conflict_append (p : List Char) : ∀ m e, conflict p m = true → conflict p (m ++ e) = true := by
  induction p with
  | nil => intro m e h; cases m <;> simp [conflict] at h
  | cons a as ih =>
    intro m e h
    cases m with
    | nil => simp [conflict] at h
    | cons b bs =>
      simp only [List.cons_append, conflict, Bool.or_eq_true] at h ⊢
      rcases h with h | h
      · exact Or.inl h
      · exact Or.inr (ih bs e h)

theorem conflict_not_isPrefixOf (p : List Char) : ∀ m r, conflict p m = true →
    p.isPrefixOf (m ++ r) = false := by
  induction p with
  | nil => intro m r h; cases m <;> simp [conflict] at h
  | cons a as ih =>
    intro m r h
    cases m with
    | nil => simp [conflict] at h
    | cons b bs =>
      simp only [conflict, Bool.or_eq_true] at h
      simp only [List.cons_append, List.isPrefixOf]
      rcases h with h | h
      · have hab : ¬ a = b := by simpa using h
        have : (a == b) = false := by simpa using hab
        simp [this]
      · simp [ih bs r h]

theorem litSafe_of_no_lt (p : List Char) : ∀ l, (∀ d ∈ l, ¬ d = '<') → litSafe p l = true := by
  intro l
  induction l with
  | nil => intro _; rfl
  | cons c cs ih =>
    intro h
    have hc : ¬ c = '<' := h c (List.mem_cons_self _ _)
    simp only [litSafe, Bool.and_eq_true]
    constructor
    · rw [if_neg (by simpa using hc)]
    · exact ih (fun d hd => h d (List.mem_cons_of_mem _ hd))

theorem litSafe_append (p : List Char) : ∀ a b, litSafe p a = true → litSafe p b = true →
    litSafe p (a ++ b) = true := by
  intro a
  induction a with
  | nil => intro b _ hb; exact hb
  | cons c cs ih =>
    intro b ha hb
    simp only [litSafe, Bool.and_eq_true] at ha
    obtain ⟨ha1, ha2⟩ := ha
    simp only [List.cons_append, litSafe, Bool.and_eq_true]
    refine ⟨?_, ih b ha2 hb⟩
    by_cases hc : (c == '<') = true
    · rw [if_pos hc] at ha1 ⊢
      have h2 := conflict_append p (c :: cs) b ha1
      rw [List.cons_append] at h2
      exact h2
    · rw [if_neg hc]

theorem countSub_skip_safe (p ps : List Char) (hp : p = '<' :: ps) :
    ∀ a b, litSafe p a = true → countSub p (a ++ b) = countSub p b := by
  intro a
  induction a with
  | nil => intro b _; rfl
  | cons c cs ih =>
    intro b ha
    simp only [litSafe, Bool.and_eq_true] at ha
    obtain ⟨ha1, ha2⟩ := ha
    simp only [List.cons_append, countSub, List.append_eq]
    have hpre : p.isPrefixOf (c :: (cs ++ b)) = false := by
      by_cases hc : (c == '<') = true
      · rw [if_pos hc] at ha1
        have h2 := conflict_not_isPrefixOf p (c :: cs) b ha1
        rw [List.cons_append] at h2
        exact h2
      · have hcc : ¬ c = '<' := fun he => hc (by rw [he]; exact beq_self_eq_true '<')
        subst hp
        simp only [List.isPrefixOf]
        have hlc : ('<' == c) = false := beq_eq_false_iff_ne.mpr (fun he => hcc he.symm)
        simp [hlc]
    simp only [hpre, Bool.false_eq_true, if_false, Nat.zero_add]
    exact ih b ha2

theorem countSub_zero_of_safe (p ps : List Char) (hp : p = '<' :: ps)
    (a : List Char) (ha : litSafe p a = true) : countSub p a = 0 := by
  have h := countSub_skip_safe p ps hp a [] ha
  rw [List.append_nil] at h
  rw [h]
  rfl

theorem isPrefixOf_append_cases (p : List Char) : ∀ l b, p.isPrefixOf (l ++ b) = true →
    p.isPrefixOf l = true ∨ l.isPrefixOf p = true := by
  induction p with
  | nil => intro l b _; exact Or.inl (by simp [List.isPrefixOf])
  | cons a as ih =>
    intro l b h
    cases l with
    | nil => exact Or.inr (by simp [List.isPrefixOf])
    | cons c cs =>
      simp only [List.cons_append, List.isPrefixOf, Bool.and_eq_true] at h ⊢
      have hac : a = c := eq_of_beq h.1
      subst hac
      rcases ih cs b h.2 with h2 | h2
      · exact Or.inl ⟨beq_self_eq_true a, h2⟩
      · exact Or.inr ⟨beq_self_eq_true a, h2⟩

theorem mem_of_isPrefixOf (l : List Char) : ∀ p, l.isPrefixOf p = true → ∀ c ∈ l, c ∈ p := by
  induction l with
  | nil => intro p _ c hc; exact absurd hc (List.not_mem_nil c)
  | cons a as ih =>
    intro p h c hc
    cases p with
    | nil => simp [List.isPrefixOf] at h
    | cons b bs =>
      simp only [List.isPrefixOf, Bool.and_eq_true] at h
      rcases List.mem_cons.mp hc with rfl | hc'
      · rw [eq_of_beq h.1]
        exact List.mem_cons_self _ _
      · exact List.mem_cons_of_mem _ (ih bs h.2 c hc')

theorem isPrefixOf_exists (l : List Char) : ∀ p, l.isPrefixOf p = true → ∃ t, p = l ++ t := by
  induction l with
  | nil => intro p _; exact ⟨p, rfl⟩
  | cons a as ih =>
    intro p h
    cases p with
    | nil => simp [List.isPrefixOf] at h
    | cons b bs =>
      simp only [List.isPrefixOf, Bool.and_eq_true] at h
      obtain ⟨t, ht⟩ := ih bs h.2
      exact ⟨t, by rw [List.cons_append, ← ht, eq_of_beq h.1]⟩

theorem isPrefixOf_append_cancel (l : List Char) : ∀ t r, (l ++ t).isPrefixOf (l ++ r) = true →
    t.isPrefixOf r = true := by
  induction l with
  | nil => intro t r h; exact h
  | cons a as ih =>
    intro t r h
    simp only [List.cons_append, List.isPrefixOf, Bool.and_eq_true] at h
    exact ih t r h.2

theorem isPrefixOf_self (l : List Char) : l.isPrefixOf l = true := by
  induction l with
  | nil => rfl
  | cons a as ih =>
    simp only [List.isPrefixOf, Bool.and_eq_true]
    exact ⟨beq_self_eq_true a, ih⟩

theorem mem_of_getLast_nl : ∀ l : List Char, l.getLast? = some '\n' → '\n' ∈ l := by
  intro l
  induction l with
  | nil => intro h; simp at h
  | cons c cs ih =>
    intro h
    cases cs with
    | nil =>
      simp at h
      subst h
      exact List.mem_cons_self _ _
    | cons d ds =>
      rw [List.getLast?_cons_cons] at h
      exact List.mem_cons_of_mem _ (ih h)

theorem countSub_append_nl (p : List Char) (hp : ¬ '\n' ∈ p) :
    ∀ a b, (a = [] ∨ a.getLast? = some '\n') →
      countSub p (a ++ b) = countSub p a + countSub p b := by
  intro a
  induction a with
  | nil => intro b _; simp [countSub]
  | cons c cs ih =>
    intro b ha
    rcases ha with ha | ha
    · exact absurd ha (by simp)
    · have hnl : '\n' ∈ c :: cs := mem_of_getLast_nl _ ha
      have ha' : cs = [] ∨ cs.getLast? = some '\n' := by
        cases cs with
        | nil => exact Or.inl rfl
        | cons d ds => exact Or.inr (by rw [← List.getLast?_cons_cons]; exact ha)
      simp only [List.cons_append, countSub, List.append_eq]
      rw [ih b ha']
      have hpre : p.isPrefixOf (c :: (cs ++ b)) = p.isPrefixOf (c :: cs) := by
        by_cases hpp : p.isPrefixOf (c :: cs) = true
        · rw [hpp]
          have h2 := isPrefixOf_append_ext p (c :: cs) b hpp
          rw [List.cons_append] at h2
          exact h2
        · have hpp' : p.isPrefixOf (c :: cs) = false := by
            cases hx : p.isPrefixOf (c :: cs)
            · rfl
            · exact absurd hx hpp
          rw [hpp']
          cases hx : p.isPrefixOf (c :: (cs ++ b))
          · rfl
          · have h3 : p.isPrefixOf ((c :: cs) ++ b) = true := by
              rw [List.cons_append]; exact hx
            rcases isPrefixOf_append_cases p (c :: cs) b h3 with h4 | h4
            · exact absurd h4 hpp
            · exact absurd (mem_of_isPrefixOf (c :: cs) p h4 '\n' hnl) hp
      simp only [hpre]
      omega

theorem countSub_append_fresh (p : List Char) (c0 : Char) (hc0 : ¬ c0 ∈ p) :
    ∀ a b, countSub p (a ++ c0 :: b) = countSub p a + countSub p (c0 :: b) := by
  intro a
  induction a with
  | nil => intro b; simp [countSub]
  | cons x xs ih =>
    intro b
    simp only [List.cons_append, countSub, List.append_eq]
    rw [ih b]
    have hpre : p.isPrefixOf (x :: (xs ++ c0 :: b)) = p.isPrefixOf (x :: xs) := by
      by_cases hpp : p.isPrefixOf (x :: xs) = true
      · rw [hpp]
        have h2 := isPrefixOf_append_ext p (x :: xs) (c0 :: b) hpp
        rw [List.cons_append] at h2
        exact h2
      · have hpp' : p.isPrefixOf (x :: xs) = false := by
          cases hx : p.isPrefixOf (x :: xs)
          · rfl
          · exact absurd hx hpp
        rw [hpp']
        cases hx : p.isPrefixOf (x :: (xs ++ c0 :: b))
        · rfl
        · have h3 : p.isPrefixOf ((x :: xs) ++ c0 :: b) = true := by
            rw [List.cons_append]; exact hx
          rcases isPrefixOf_append_cases p (x :: xs) (c0 :: b) h3 with h4 | h4
          · exact absurd h4 hpp
          · obtain ⟨t, ht⟩ := isPrefixOf_exists (x :: xs) p h4
            cases t with
            | nil =>
              rw [List.append_nil] at ht
              subst ht
              exact absurd (isPrefixOf_self (x :: xs)) hpp
            | cons t0 ts =>
              subst ht
              have h5 := isPrefixOf_append_cancel (x :: xs) (t0 :: ts) (c0 :: b) h3
              simp only [List.isPrefixOf, Bool.and_eq_true] at h5
              have ht0 : t0 = c0 := eq_of_beq h5.1
              subst ht0
              exact absurd (by simp : t0 ∈ (x :: xs) ++ t0 :: ts) hc0
    simp only [hpre, countSub]
    omega

theorem getLast_append_nl (a b : List Char) (hb : b.getLast? = some '\n') :
    (a ++ b).getLast? = some '\n' := by
  rw [List.getLast?_append, hb]
  rfl

theorem endsNewline_getLast (s : String) (h : endsNewline s = true) :
    s.data.getLast? = some '\n' := by
  unfold endsNewline strEnds at h
  rw [← List.head?_reverse]
  cases hr : s.data.reverse with
  | nil =>
    rw [hr] at h
    exact absurd h (by decide)
  | cons c cs =>
    rw [hr] at h
    have h2 : (['\n'] : List Char).isPrefixOf (c :: cs) = true := h
    simp only [List.isPrefixOf, Bool.and_eq_true] at h2
    have : '\n' = c := eq_of_beq h2.1
    rw [← this]
    rfl

theorem concatAll_nl (L : List String)
    (h : ∀ s ∈ L, s.data = [] ∨ s.data.getLast? = some '\n') :
    (concatAll L).data = [] ∨ (concatAll L).data.getLast? = some '\n' := by
  induction L with
  | nil => exact Or.inl rfl
  | cons s rest ih =>
    have hrest := ih (fun x hx => h x (List.mem_cons_of_mem _ hx))
    have hs := h s (List.mem_cons_self _ _)
    simp only [concatAll, String.data_append]
    rcases hrest with h1 | h1
    · rw [h1, List.append_nil]
      exact hs
    · exact Or.inr (getLast_append_nl _ _ h1)

theorem countSub_concatAll (p : List Char) (hp : ¬ '\n' ∈ p) :
    ∀ L : List String, (∀ s ∈ L, s.data = [] ∨ s.data.getLast? = some '\n') →
      countSub p (concatAll L).data = (L.map (fun s => countSub p s.data)).sum := by
  intro L
  induction L with
  | nil => intro _; rfl
  | cons s rest ih =>
    intro h
    simp only [concatAll, String.data_append, List.map_cons, List.sum_cons]
    rw [countSub_append_nl p hp s.data (concatAll rest).data (h s (List.mem_cons_self _ _))]
    rw [ih (fun x hx => h x (List.mem_cons_of_mem _ hx))]

theorem mem_concatAll (d : Char) : ∀ L : List String, d ∈ (concatAll L).data →
    ∃ s ∈ L, d ∈ s.data := by
  intro L
  induction L with
  | nil => intro h; exact absurd h (List.not_mem_nil d)
  | cons s rest ih =>
    intro h
    simp only [concatAll, String.data_append] at h
    rcases List.mem_append.mp h with h1 | h1
    · exact ⟨s, List.mem_cons_self _ _, h1⟩
    · obtain ⟨x, hx, hd⟩ := ih h1
      exact ⟨x, List.mem_cons_of_mem _ hx, hd⟩

theorem mem_replaceChar (c : Char) (rep : String) (s : String) (d : Char)
    (h : d ∈ (replaceChar c rep s).data) : d ∈ rep.data ∨ (d ∈ s.data ∧ ¬ d = c) := by
  have h' : d ∈ s.data.flatMap (fun x => if x == c then rep.data else [x]) := h
  obtain ⟨a, ha, hd⟩ := List.mem_flatMap.mp h'
  by_cases hac : (a == c) = true
  · rw [if_pos hac] at hd
    exact Or.inl hd
  · rw [if_neg hac] at hd
    have hda : d = a := by simpa using hd
    subst hda
    exact Or.inr ⟨ha, fun he => hac (by rw [he]; exact beq_self_eq_true c)⟩

theorem xml_escape_no_lt (s : String) : ∀ d ∈ (xml_escape s).data, ¬ d = '<' := by
  intro d hd he
  subst he
  unfold xml_escape at hd
  rcases mem_replaceChar _ _ _ _ hd with h1 | ⟨h1, _⟩
  · exact absurd h1 (by decide)
  · rcases mem_replaceChar _ _ _ _ h1 with h2 | ⟨h2, _⟩
    · exact absurd h2 (by decide)
    · rcases mem_replaceChar _ _ _ _ h2 with h3 | ⟨h3, hne⟩
      · exact absurd h3 (by decide)
      · exact hne rfl

theorem digitChar_no_lt (n : Nat) : ¬ digitChar n = '<' := by
  unfold digitChar
  have h10 : n % 10 = 0 ∨ n % 10 = 1 ∨ n % 10 = 2 ∨ n % 10 = 3 ∨ n % 10 = 4
      ∨ n % 10 = 5 ∨ n % 10 = 6 ∨ n % 10 = 7 ∨ n % 10 = 8 ∨ n % 10 = 9 := by omega
  rcases h10 with h|h|h|h|h|h|h|h|h|h <;> rw [h] <;> decide

theorem natReprAux_no_lt : ∀ (fuel n : Nat) (acc : List Char),
    (∀ d ∈ acc, ¬ d = '<') → ∀ d ∈ natReprAux fuel n acc, ¬ d = '<' := by
  intro fuel
  induction fuel with
  | zero =>
    intro n acc hacc
    simpa [natReprAux] using hacc
  | succ f ih =>
    intro n acc hacc
    simp only [natReprAux]
    split
    · intro d hd
      rcases List.mem_cons.mp hd with rfl | hd'
      · exact digitChar_no_lt n
      · exact hacc d hd'
    · refine ih (n / 10) _ ?_
      intro d hd
      rcases List.mem_cons.mp hd with rfl | hd'
      · exact digitChar_no_lt (n % 10)
      · exact hacc d hd'

theorem natRepr_no_lt (n : Nat) : ∀ d ∈ (natRepr n).data, ¬ d = '<' := by
  intro d hd
  exact natReprAux_no_lt (n + 1) n [] (fun x hx => absurd hx (List.not_mem_nil x)) d hd

theorem format_tokens_no_lt (t : Nat) : ∀ d ∈ (format_tokens t).data, ¬ d = '<' := by
  intro d hd he
  subst he
  unfold format_tokens at hd
  split at hd
  · simp only [String.data_append] at hd
    rcases List.mem_append.mp hd with h1 | h1
    · rcases List.mem_append.mp h1 with h2 | h2
      · rcases List.mem_append.mp h2 with h3 | h3
        · exact natRepr_no_lt _ '<' h3 rfl
        · exact absurd h3 (by decide)
      · exact natRepr_no_lt _ '<' h2 rfl
    · exact absurd h1 (by decide)
  · split at hd
    · simp only [String.data_append] at hd
      rcases List.mem_append.mp hd with h1 | h1
      · rcases List.mem_append.mp h1 with h2 | h2
        · rcases List.mem_append.mp h2 with h3 | h3
          · exact natRepr_no_lt _ '<' h3 rfl
          · exact absurd h3 (by decide)
        · exact natRepr_no_lt _ '<' h2 rfl
      · exact absurd h1 (by decide)
    · exact natRepr_no_lt _ '<' hd rfl

theorem no_lt_of_contains_false (l : List Char) (h : l.contains '<' = false) :
    ∀ d ∈ l, ¬ d = '<' := by
  intro d hd he
  subst he
  simp [List.contains_iff_exists_mem_beq] at h
  exact h hd

theorem contains_false_of_no_lt (l : List Char) (h : ∀ d ∈ l, ¬ d = '<') :
    l.contains '<' = false := by
  simp [List.contains_iff_exists_mem_beq]
  intro hx
  exact absurd rfl (h '<' hx)

theorem splitChar_chars (c : Char) : ∀ (l : List Char) (seg : List Char),
    seg ∈ splitChar c l → ∀ d ∈ seg, d ∈ l := by
  intro l
  induction l with
  | nil =>
    intro seg hseg d hd
    have hse : seg = [] := by simpa [splitChar] using hseg
    subst hse
    exact absurd hd (List.not_mem_nil d)
  | cons e rest ih =>
    intro seg hseg d hd
    simp only [splitChar] at hseg
    split at hseg
    · rcases List.mem_cons.mp hseg with rfl | h1
      · exact absurd hd (List.not_mem_nil d)
      · exact List.mem_cons_of_mem _ (ih seg h1 d hd)
    · cases hsp : splitChar c rest with
      | nil =>
        rw [hsp] at hseg
        have hse : seg = [e] := by simpa using hseg
        subst hse
        have hde : d = e := by simpa using hd
        subst hde
        exact List.mem_cons_self _ _
      | cons h0 t0 =>
        rw [hsp] at hseg
        rcases List.mem_cons.mp hseg with rfl | h1
        · rcases List.mem_cons.mp hd with rfl | h2
          · exact List.mem_cons_self _ _
          · refine List.mem_cons_of_mem _ (ih h0 ?_ d h2)
            rw [hsp]
            exact List.mem_cons_self _ _
        · refine List.mem_cons_of_mem _ (ih seg ?_ d hd)
          rw [hsp]
          exact List.mem_cons_of_mem _ h1

theorem xmlPat_shape (q : String) (hq : XmlPat q) :
    (∃ ps, q.data = '<' :: ps) ∧ ¬ '\n' ∈ q.data := by
  rcases hq with rfl | rfl | rfl | rfl
  · exact ⟨⟨"codepack>".data, by decide⟩, by decide⟩
  · exact ⟨⟨"/codepack>".data, by decide⟩, by decide⟩
  · exact ⟨⟨"files>".data, by decide⟩, by decide⟩
  · exact ⟨⟨"/files>".data, by decide⟩, by decide⟩

theorem xmlPat_litSafe (q : String) (hq : XmlPat q) (l : String)
    (h : (litSafe "<codepack>".data l.data && litSafe "</codepack>".data l.data
       && litSafe "<files>".data l.data && litSafe "</files>".data l.data) = true) :
    litSafe q.data l.data = true := by
  simp only [Bool.and_eq_true] at h
  rcases hq with rfl | rfl | rfl | rfl
  · exact h.1.1.1
  · exact h.1.1.2
  · exact h.1.2
  · exact h.2

theorem keysLtFree_inv {t : TreeN} (h : KeysLtFree t) :
    (∀ kv ∈ t.children, (kv : String × TreeN).1.data.contains '<' = false)
    ∧ (∀ kv ∈ t.children, KeysLtFree (kv : String × TreeN).2) := by
  cases h with
  | mk cs h1 h2 => exact ⟨h1, h2⟩

theorem alistGet_mem {α : Type} : ∀ (kvs : List (String × α)) (k : String) (v : α),
    alistGet kvs k = some v → (k, v) ∈ kvs ∨ ∃ k', (k', v) ∈ kvs := by
  intro kvs
  induction kvs with
  | nil => intro k v h; simp [alistGet] at h
  | cons p rest ih =>
    obtain ⟨k', v'⟩ := p
    intro k v h
    simp only [alistGet] at h
    split at h
    · have hv : v' = v := by simpa using h
      subst hv
      exact Or.inr ⟨k', List.mem_cons_self _ _⟩
    · rcases ih k v h with h1 | ⟨k2, h2⟩
      · exact Or.inl (List.mem_cons_of_mem _ h1)
      · exact Or.inr ⟨k2, List.mem_cons_of_mem _ h2⟩

theorem mem_putChild (s : String) (t' : TreeN) (kv : String × TreeN) :
    ∀ cs : List (String × TreeN), kv ∈ putChild cs s t' → kv ∈ cs ∨ kv = (s, t') := by
  intro cs
  induction cs with
  | nil =>
    intro h
    right
    simpa [putChild] using h
  | cons p rest ih =>
    obtain ⟨k, u⟩ := p
    intro h
    simp only [putChild] at h
    split at h
    · rcases List.mem_cons.mp h with rfl | h1
      · right
        have hks : s = k := eq_of_beq (by assumption)
        rw [hks]
      · exact Or.inl (List.mem_cons_of_mem _ h1)
    · split at h
      · rcases List.mem_cons.mp h with rfl | h1
        · exact Or.inr rfl
        · exact Or.inl h1
      · rcases List.mem_cons.mp h with rfl | h1
        · exact Or.inl (List.mem_cons_self _ _)
        · rcases ih h1 with h2 | h2
          · exact Or.inl (List.mem_cons_of_mem _ h2)
          · exact Or.inr h2

theorem keysLtFree_insertPath :
    ∀ (segs : List String) (t : TreeN), KeysLtFree t →
      (∀ s ∈ segs, ∀ d ∈ s.data, ¬ d = '<') → KeysLtFree (insertPath t segs) := by
  intro segs
  induction segs with
  | nil => intro t ht _; exact ht
  | cons s rest ih =>
    intro t ht hs
    obtain ⟨hk1, hk2⟩ := keysLtFree_inv ht
    simp only [insertPath]
    have hsub : KeysLtFree ((alistGet t.children s).getD (TreeN.mk [])) := by
      cases halg : alistGet t.children s with
      | none =>
        exact KeysLtFree.mk [] (fun kv hkv => absurd hkv (List.not_mem_nil kv))
          (fun kv hkv => absurd hkv (List.not_mem_nil kv))
      | some v =>
        rcases alistGet_mem t.children s v halg with h1 | ⟨k2, h2⟩
        · exact hk2 (s, v) h1
        · exact hk2 (k2, v) h2
    have hrec : KeysLtFree (insertPath ((alistGet t.children s).getD (TreeN.mk [])) rest) :=
      ih _ hsub (fun x hx => hs x (List.mem_cons_of_mem _ hx))
    refine KeysLtFree.mk _ ?_ ?_
    · intro kv hkv
      rcases mem_putChild s _ kv t.children hkv with h1 | rfl
      · exact hk1 kv h1
      · exact contains_false_of_no_lt s.data (hs s (List.mem_cons_self _ _))
    · intro kv hkv
      rcases mem_putChild s _ kv t.children hkv with h1 | rfl
      · exact hk2 kv h1
      · exact hrec

theorem keysLtFree_buildTreeN (rel : List String)
    (h : ∀ r ∈ rel, ∀ d ∈ r.data, ¬ d = '<') :
    KeysLtFree (buildTreeN rel) := by
  unfold buildTreeN
  have hgen : ∀ (l : List String) (t : TreeN), KeysLtFree t →
      (∀ r ∈ l, ∀ d ∈ r.data, ¬ d = '<') →
      KeysLtFree (l.foldl (fun acc p => insertPath acc (splitStr '/' p)) t) := by
    intro l
    induction l with
    | nil => intro t ht _; exact ht
    | cons r rest ih =>
      intro t ht hl
      refine ih _ ?_ (fun x hx => hl x (List.mem_cons_of_mem _ hx))
      refine keysLtFree_insertPath _ t ht ?_
      intro s hsm d hd
      have hsub : d ∈ r.data := by
        rcases List.mem_map.mp hsm with ⟨seg, hseg, rfl⟩
        exact splitChar_chars '/' r.data seg hseg d hd
      exact hl r (List.mem_cons_self _ _) d hsub
  exact hgen rel (TreeN.mk []) (KeysLtFree.mk [] (fun kv hkv => absurd hkv (List.not_mem_nil kv))
    (fun kv hkv => absurd hkv (List.not_mem_nil kv))) h

theorem no_lt_append (a b : String) (ha : ∀ d ∈ a.data, ¬ d = '<')
    (hb : ∀ d ∈ b.data, ¬ d = '<') : ∀ d ∈ (a ++ b).data, ¬ d = '<' := by
  intro d hd
  rw [String.data_append] at hd
  rcases List.mem_append.mp hd with h | h
  · exact ha d h
  · exact hb d h

theorem renderEntries_no_lt :
    ∀ (pre : String) (is_root : Bool) (cs : List (String × TreeN)),
      (∀ d ∈ pre.data, ¬ d = '<') → KeysLtFree (.mk cs) →
      ∀ line ∈ renderEntries pre is_root cs, ∀ d ∈ line.data, ¬ d = '<' := by
  intro pre is_root cs
  induction pre, is_root, cs using renderEntries.induct with
  | case1 pre is_root =>
    intro _ _ line hline
    simp only [renderEntries] at hline
    exact absurd hline (List.not_mem_nil line)
  | case2 pre is_root name cs rest ih1 ih2 ih3 =>
    intro hpre hk line hline
    obtain ⟨hk1, hk2⟩ := keysLtFree_inv hk
    have hname : ∀ d ∈ name.data, ¬ d = '<' :=
      no_lt_of_contains_false _ (hk1 (name, .mk cs) (List.mem_cons_self _ _))
    have hkcs : KeysLtFree (.mk cs) := hk2 (name, .mk cs) (List.mem_cons_self _ _)
    have hkrest : KeysLtFree (.mk rest) := by
      refine KeysLtFree.mk _ ?_ ?_
      · intro kv hkv; exact hk1 kv (List.mem_cons_of_mem _ hkv)
      · intro kv hkv; exact hk2 kv (List.mem_cons_of_mem _ hkv)
    simp only [renderEntries] at hline
    rcases List.mem_append.mp hline with hmem | hmem
    · by_cases hroot : is_root = true
      · rw [if_pos hroot] at hmem
        by_cases hcs : (!cs.isEmpty) = true
        · rw [if_pos hcs] at hmem
          rcases List.mem_cons.mp hmem with rfl | hmem2
          · exact no_lt_append _ _ hname (by decide)
          · exact ih1 (by decide) hkcs line hmem2
        · rw [if_neg hcs] at hmem
          have hle : line = name := by simpa using hmem
          subst hle
          exact hname
      · rw [if_neg hroot] at hmem
        by_cases hre : rest.isEmpty = true
        · rw [if_pos hre] at hmem
          have ih2' := ih2
          simp only [dif_pos hre] at ih2'
          by_cases hcs : (!cs.isEmpty) = true
          · rw [if_pos hcs] at hmem
            rcases List.mem_cons.mp hmem with rfl | hmem2
            · exact no_lt_append _ _
                (no_lt_append _ _ (no_lt_append _ _ hpre (by decide)) hname) (by decide)
            · rw [if_pos hre] at hmem2
              exact ih2' (no_lt_append _ _ hpre (by decide)) hkcs line hmem2
          · rw [if_neg hcs] at hmem
            have hle : line = pre ++ "└── " ++ name := by simpa using hmem
            subst hle
            exact no_lt_append _ _ (no_lt_append _ _ hpre (by decide)) hname
        · rw [if_neg hre] at hmem
          have ih2' := ih2
          simp only [dif_neg hre] at ih2'
          by_cases hcs : (!cs.isEmpty) = true
          · rw [if_pos hcs] at hmem
            rcases List.mem_cons.mp hmem with rfl | hmem2
            · exact no_lt_append _ _
                (no_lt_append _ _ (no_lt_append _ _ hpre (by decide)) hname) (by decide)
            · rw [if_neg hre] at hmem2
              exact ih2' (no_lt_append _ _ hpre (by decide)) hkcs line hmem2
          · rw [if_neg hcs] at hmem
            have hle : line = pre ++ "├── " ++ name := by simpa using hmem
            subst hle
            exact no_lt_append _ _ (no_lt_append _ _ hpre (by decide)) hname
    · exact ih3 hpre hkrest line hmem

theorem keysLtFree_mk_children (t : TreeN) (h : KeysLtFree t) :
    KeysLtFree (.mk t.children) := by
  cases t with
  | mk cs => exact h

theorem tree_overview_xml_count (q : String) (hq : XmlPat q) (rel : List String)
    (hrel : ∀ r ∈ rel, ∀ d ∈ r.data, ¬ d = '<') :
    countS q (build_tree_overview rel .Xml) = 0 := by
  obtain ⟨⟨ps, hps⟩, _⟩ := xmlPat_shape q hq
  simp only [build_tree_overview]
  by_cases hre : rel.isEmpty = true
  · rw [if_pos hre]
    rfl
  · rw [if_neg hre]
    have hkeys : KeysLtFree (buildTreeN rel) := keysLtFree_buildTreeN rel hrel
    have hlines : ∀ d ∈ (concatAll ((renderEntries "" true (buildTreeN rel).children).map
        (fun line => line ++ "\n"))).data, ¬ d = '<' := by
      intro d hd
      obtain ⟨s, hs, hds⟩ := mem_concatAll d _ hd
      obtain ⟨line, hline, rfl⟩ := List.mem_map.mp hs
      refine no_lt_append line "\n" ?_ (by decide) d hds
      exact renderEntries_no_lt "" true (buildTreeN rel).children
        (fun x hx => absurd hx (List.not_mem_nil x))
        (keysLtFree_mk_children _ hkeys) line hline
    unfold countS
    simp only [String.data_append]
    refine countSub_zero_of_safe q.data ps hps _ ?_
    refine litSafe_append _ _ _ (litSafe_append _ _ _ ?_ ?_) ?_
    · exact xmlPat_litSafe q hq "<file_tree>\n<![CDATA[\n" (by decide)
    · exact litSafe_of_no_lt _ _ hlines
    · exact xmlPat_litSafe q hq "]]>\n</file_tree>\n\n" (by decide)

theorem count_wrapped_zero (q : String) (ps : List Char) (hps : q.data = '<' :: ps)
    (l1 e l2 : String) (h1 : litSafe q.data l1.data = true)
    (h2 : litSafe q.data l2.data = true) (he : ∀ d ∈ e.data, ¬ d = '<') :
    countSub q.data (l1 ++ e ++ l2).data = 0 := by
  simp only [String.data_append]
  refine countSub_zero_of_safe q.data ps hps _ ?_
  exact litSafe_append _ _ _ (litSafe_append _ _ _ h1 (litSafe_of_no_lt _ _ he)) h2

theorem xmlHeaderPieces_nl (meta : ProjectMetadata) (fc et : Nat) :
    ∀ s ∈ xmlHeaderPieces meta fc et, s.data = [] ∨ s.data.getLast? = some '\n' := by
  intro s hs
  right
  unfold xmlHeaderPieces at hs
  rcases List.mem_append.mp hs with h1 | hL2
  · rcases List.mem_append.mp h1 with h2 | hDP
    · rcases List.mem_append.mp h2 with h3 | hRT
      · rcases List.mem_append.mp h3 with h4 | hM3
        · rcases List.mem_append.mp h4 with h5 | hM2
          · rcases List.mem_append.mp h5 with hL1 | hM1
            · simp only [List.mem_cons, List.not_mem_nil, or_false] at hL1
              rcases hL1 with rfl | rfl | rfl | rfl | rfl
              · decide
              · decide
              · decide
              · rw [String.data_append]; exact getLast_append_nl _ _ (by decide)
              · rw [String.data_append]; exact getLast_append_nl _ _ (by decide)
            · cases hv : meta.version with
              | none => rw [hv] at hM1; exact absurd hM1 (List.not_mem_nil s)
              | some v =>
                rw [hv] at hM1
                have hse : s = "  <version>" ++ xml_escape v ++ "</version>\n" := by
                  simpa using hM1
                subst hse
                rw [String.data_append]; exact getLast_append_nl _ _ (by decide)
          · cases hv : meta.description with
            | none => rw [hv] at hM2; exact absurd hM2 (List.not_mem_nil s)
            | some v =>
              rw [hv] at hM2
              have hse : s = "  <description>" ++ xml_escape v ++ "</description>\n" := by
                simpa using hM2
              subst hse
              rw [String.data_append]; exact getLast_append_nl _ _ (by decide)
        · cases hv : meta.entry_point with
          | none => rw [hv] at hM3; exact absurd hM3 (List.not_mem_nil s)
          | some v =>
            rw [hv] at hM3
            have hse : s = "  <entry_point>" ++ xml_escape v ++ "</entry_point>\n" := by
              simpa using hM3
            subst hse
            rw [String.data_append]; exact getLast_append_nl _ _ (by decide)
      · by_cases hrt : meta.runtime.isEmpty = true
        · rw [if_pos hrt] at hRT; exact absurd hRT (List.not_mem_nil s)
        · rw [if_neg hrt] at hRT
          rcases List.mem_cons.mp hRT with rfl | h
          · decide
          · rcases List.mem_append.mp h with h | h
            · obtain ⟨r, hr, rfl⟩ := List.mem_map.mp h
              rw [String.data_append]; exact getLast_append_nl _ _ (by decide)
            · have hse : s = "  </runtime>\n" := by simpa using h
              subst hse
              decide
    · by_cases hdp : meta.dependencies.isEmpty = true
      · rw [if_pos hdp] at hDP; exact absurd hDP (List.not_mem_nil s)
      · rw [if_neg hdp] at hDP
        rcases List.mem_cons.mp hDP with rfl | h
        · decide
        · rcases List.mem_append.mp h with h | h
          · obtain ⟨r, hr, rfl⟩ := List.mem_map.mp h
            rw [String.data_append]; exact getLast_append_nl _ _ (by decide)
          · have hse : s = "  </dependencies>\n" := by simpa using h
            subst hse
            decide
  · simp only [List.mem_cons, List.not_mem_nil, or_false] at hL2
    rcases hL2 with rfl | rfl | rfl
    · rw [String.data_append]; exact getLast_append_nl _ _ (by decide)
    · rw [String.data_append]; exact getLast_append_nl _ _ (by decide)
    · decide

set_option maxHeartbeats 1000000 in
theorem xmlHeader_count (q : String) (hq : XmlPat q) (meta : ProjectMetadata) (fc et : Nat) :
    countS q (build_xml_header meta fc et)
      = (if q = "<codepack>" then 1 else 0) + (if q = "<files>" then 1 else 0) := by
  obtain ⟨⟨ps, hps⟩, hnl⟩ := xmlPat_shape q hq
  unfold build_xml_header countS
  rw [countSub_concatAll q.data hnl _ (xmlHeaderPieces_nl meta fc et)]
  simp only [xmlHeaderPieces, List.map_append, List.sum_append, List.map_cons, List.sum_cons,
    List.map_nil, List.sum_nil]
  rw [count_wrapped_zero q ps hps "  <name>" (xml_escape meta.name) "</name>\n"
        (xmlPat_litSafe q hq _ (by decide)) (xmlPat_litSafe q hq _ (by decide))
        (xml_escape_no_lt _)]
  rw [count_wrapped_zero q ps hps "  <type>" (xml_escape meta.project_type) "</type>\n"
        (xmlPat_litSafe q hq _ (by decide)) (xmlPat_litSafe q hq _ (by decide))
        (xml_escape_no_lt _)]
  rw [count_wrapped_zero q ps hps "  <file_count>" (natRepr fc) "</file_count>\n"
        (xmlPat_litSafe q hq _ (by decide)) (xmlPat_litSafe q hq _ (by decide))
        (natRepr_no_lt _)]
  rw [count_wrapped_zero q ps hps "  <estimated_tokens>" (format_tokens et) "</estimated_tokens>\n"
        (xmlPat_litSafe q hq _ (by decide)) (xmlPat_litSafe q hq _ (by decide))
        (format_tokens_no_lt _)]
  have hver : ((match meta.version with
      | some ver => ["  <version>" ++ xml_escape ver ++ "</version>\n"]
      | none => ([] : List String)).map (fun (s : String) => countSub q.data s.data)).sum = 0 := by
    cases meta.version with
    | none => rfl
    | some v =>
      simp only [List.map_cons, List.map_nil, List.sum_cons, List.sum_nil]
      rw [count_wrapped_zero q ps hps "  <version>" (xml_escape v) "</version>\n"
            (xmlPat_litSafe q hq _ (by decide)) (xmlPat_litSafe q hq _ (by decide))
            (xml_escape_no_lt _)]
      rfl
  have hdesc : ((match meta.description with
      | some desc => ["  <description>" ++ xml_escape desc ++ "</description>\n"]
      | none => ([] : List String)).map (fun (s : String) => countSub q.data s.data)).sum = 0 := by
    cases meta.description with
    | none => rfl
    | some v =>
      simp only [List.map_cons, List.map_nil, List.sum_cons, List.sum_nil]
      rw [count_wrapped_zero q ps hps "  <description>" (xml_escape v) "</description>\n"
            (xmlPat_litSafe q hq _ (by decide)) (xmlPat_litSafe q hq _ (by decide))
            (xml_escape_no_lt _)]
      rfl
  have hentry : ((match meta.entry_point with
      | some entry => ["  <entry_point>" ++ xml_escape entry ++ "</entry_point>\n"]
      | none => ([] : List String)).map (fun (s : String) => countSub q.data s.data)).sum = 0 := by
    cases meta.entry_point with
    | none => rfl
    | some v =>
      simp only [List.map_cons, List.map_nil, List.sum_cons, List.sum_nil]
      rw [count_wrapped_zero q ps hps "  <entry_point>" (xml_escape v) "</entry_point>\n"
            (xmlPat_litSafe q hq _ (by decide)) (xmlPat_litSafe q hq _ (by decide))
            (xml_escape_no_lt _)]
      rfl
  have hrt : ((if meta.runtime.isEmpty then ([] : List String) else
      ("  <runtime>\n" :: meta.runtime.map (fun r => "    <env>" ++ xml_escape r ++ "</env>\n"))
        ++ ["  </runtime>\n"]).map (fun (s : String) => countSub q.data s.data)).sum = 0 := by
    by_cases hrte : meta.runtime.isEmpty = true
    · rw [if_pos hrte]; rfl
    · rw [if_neg hrte]
      simp only [List.map_cons, List.sum_cons, List.map_append, List.sum_append,
        List.map_nil, List.sum_nil, List.map_map]
      have henv : ∀ x ∈ meta.runtime.map ((fun s => countSub q.data s.data)
          ∘ (fun r => "    <env>" ++ xml_escape r ++ "</env>\n")), x = 0 := by
        intro x hx
        obtain ⟨r, hr, rfl⟩ := List.mem_map.mp hx
        exact count_wrapped_zero q ps hps "    <env>" (xml_escape r) "</env>\n"
          (xmlPat_litSafe q hq _ (by decide)) (xmlPat_litSafe q hq _ (by decide))
          (xml_escape_no_lt _)
      rw [List.sum_eq_zero henv]
      rw [countSub_zero_of_safe q.data ps hps _ (xmlPat_litSafe q hq "  <runtime>\n" (by decide))]
      rw [countSub_zero_of_safe q.data ps hps _ (xmlPat_litSafe q hq "  </runtime>\n" (by decide))]
      rfl
  have hdp : ((if meta.dependencies.isEmpty then ([] : List String) else
      ("  <dependencies>\n" :: meta.dependencies.map (fun dep => "    <dep>" ++ xml_escape dep ++ "</dep>\n"))
        ++ ["  </dependencies>\n"]).map (fun (s : String) => countSub q.data s.data)).sum = 0 := by
    by_cases hdpe : meta.dependencies.isEmpty = true
    · rw [if_pos hdpe]; rfl
    · rw [if_neg hdpe]
      simp only [List.map_cons, List.sum_cons, List.map_append, List.sum_append,
        List.map_nil, List.sum_nil, List.map_map]
      have hdep1 : ∀ x ∈ meta.dependencies.map ((fun s => countSub q.data s.data)
          ∘ (fun dep => "    <dep>" ++ xml_escape dep ++ "</dep>\n")), x = 0 := by
        intro x hx
        obtain ⟨r, hr, rfl⟩ := List.mem_map.mp hx
        exact count_wrapped_zero q ps hps "    <dep>" (xml_escape r) "</dep>\n"
          (xmlPat_litSafe q hq _ (by decide)) (xmlPat_litSafe q hq _ (by decide))
          (xml_escape_no_lt _)
      rw [List.sum_eq_zero hdep1]
      rw [countSub_zero_of_safe q.data ps hps _ (xmlPat_litSafe q hq "  <dependencies>\n" (by decide))]
      rw [countSub_zero_of_safe q.data ps hps _ (xmlPat_litSafe q hq "  </dependencies>\n" (by decide))]
      rfl
  rw [hver, hdesc, hentry, hrt, hdp]
  rcases hq with rfl | rfl | rfl | rfl
  · decide
  · decide
  · decide
  · decide

theorem footer_xml_count (q : String) (hq : XmlPat q) :
    countS q (build_footer .Xml)
      = (if q = "</codepack>" then 1 else 0) + (if q = "</files>" then 1 else 0) := by
  rcases hq with rfl | rfl | rfl | rfl
  · decide
  · decide
  · decide
  · decide

theorem sizeSkipBody_xml_count (q : String) (hq : XmlPat q) (rel : String)
    (hrel : ∀ d ∈ rel.data, ¬ d = '<') (size limit : Nat) :
    countS q (sizeSkipBody .Xml rel size limit) = 0 := by
  obtain ⟨⟨ps, hps⟩, _⟩ := xmlPat_shape q hq
  unfold sizeSkipBody countS
  simp only [String.data_append]
  refine countSub_zero_of_safe q.data ps hps _ ?_
  refine litSafe_append _ _ _ (litSafe_append _ _ _ (litSafe_append _ _ _
    (litSafe_append _ _ _ ?_ ?_) ?_) ?_) ?_
  · exact xmlPat_litSafe q hq "<file path=\"" (by decide)
  · exact litSafe_of_no_lt _ _ (xml_escape_no_lt rel)
  · exact xmlPat_litSafe q hq "\" skipped=\"true\" size_kb=\"" (by decide)
  · exact litSafe_of_no_lt _ _ (natRepr_no_lt _)
  · exact xmlPat_litSafe q hq "\" />\n\n" (by decide)

theorem includedBody_xml_count (q : String) (hq : XmlPat q) (rel content : String)
    (hrel : ∀ d ∈ rel.data, ¬ d = '<') (hc : countS q content = 0) :
    countS q (includedBody .Xml rel content) = 0 := by
  obtain ⟨⟨ps, hps⟩, hnl⟩ := xmlPat_shape q hq
  have hc' : countSub q.data content.data = 0 := hc
  have hpre : litSafe q.data (("<file path=\"" : String).data ++ (xml_escape rel).data
      ++ ("\">\n<![CDATA[\n" : String).data) = true := by
    refine litSafe_append _ _ _ (litSafe_append _ _ _ ?_ ?_) ?_
    · exact xmlPat_litSafe q hq "<file path=\"" (by decide)
    · exact litSafe_of_no_lt _ _ (xml_escape_no_lt rel)
    · exact xmlPat_litSafe q hq "\">\n<![CDATA[\n" (by decide)
  have htail : litSafe q.data ("]]>\n</file>\n\n" : String).data = true :=
    xmlPat_litSafe q hq "]]>\n</file>\n\n" (by decide)
  have hsafe2 : litSafe q.data ('\n' :: ("]]>\n</file>\n\n" : String).data) = true :=
    litSafe_append q.data ['\n'] ("]]>\n</file>\n\n" : String).data
      (litSafe_of_no_lt _ _ (by decide)) htail
  simp only [String.data_append] at hpre htail hsafe2
  unfold includedBody countS
  by_cases hen : endsNewline content = true
  · rw [if_pos hen]
    simp only [String.data_append]
    rw [List.append_nil]
    rw [List.append_assoc]
    rw [countSub_skip_safe q.data ps hps _ _ hpre]
    rw [countSub_append_nl q.data hnl content.data _ (Or.inr (endsNewline_getLast content hen))]
    rw [hc']
    rw [countSub_zero_of_safe q.data ps hps _ htail]
  · rw [if_neg hen]
    simp only [String.data_append]
    rw [List.append_assoc, List.append_assoc]
    rw [countSub_skip_safe q.data ps hps _ _ hpre]
    rw [List.singleton_append]
    rw [countSub_append_fresh q.data '\n' hnl content.data _]
    rw [hc']
    rw [countSub_zero_of_safe q.data ps hps _ hsafe2]

theorem sizeSkipBody_xml_nl (rel : String) (size limit : Nat) :
    (sizeSkipBody .Xml rel size limit).data.getLast? = some '\n' := by
  unfold sizeSkipBody
  simp only [String.data_append]
  exact getLast_append_nl _ _ (by decide)

theorem includedBody_xml_nl (rel content : String) :
    (includedBody .Xml rel content).data.getLast? = some '\n' := by
  unfold includedBody
  simp only [String.data_append]
  exact getLast_append_nl _ _ (by decide)

theorem processOne_body_shape (fs : FS) (root : String) (limit : Nat) (st : PackSt) (p : String) :
    (processOne .Xml fs root limit st p).body = st.body
    ∨ (processOne .Xml fs root limit st p).body
        = st.body ++ sizeSkipBody .Xml (relativeOf root p) ((fs.stat p).getD 0) limit
    ∨ ∃ content, fs.readToString p = some content
        ∧ (processOne .Xml fs root limit st p).body
            = st.body ++ includedBody .Xml (relativeOf root p) content := by
  simp only [processOne]
  by_cases h : limit < (fs.stat p).getD 0
  · rw [if_pos h]
    exact Or.inr (Or.inl rfl)
  · rw [if_neg h]
    cases hr : fs.readToString p with
    | none => exact Or.inl rfl
    | some content =>
      by_cases hc : MAX_FILE_COUNT ≤ st.file_count
      · left
        simp only [hc, if_true]
      · right
        right
        refine ⟨content, rfl, ?_⟩
        simp only [hc, if_false]

theorem foldBody_xml_count (q : String) (hq : XmlPat q) (fs : FS) (root : String)
    (limit : Nat) :
    ∀ (paths : List String),
      (∀ p ∈ paths, ∀ d ∈ (relativeOf root p).data, ¬ d = '<') →
      (∀ p ∈ paths, ∀ c, fs.readToString p = some c → countS q c = 0) →
      ∀ st : PackSt, (st.body.data = [] ∨ st.body.data.getLast? = some '\n') →
        countS q st.body = 0 →
        ((paths.foldl (processOne .Xml fs root limit) st).body.data = []
          ∨ (paths.foldl (processOne .Xml fs root limit) st).body.data.getLast? = some '\n')
        ∧ countS q (paths.foldl (processOne .Xml fs root limit) st).body = 0 := by
  obtain ⟨⟨ps, hps⟩, hnl⟩ := xmlPat_shape q hq
  intro paths
  induction paths with
  | nil => intro _ _ st h1 h2; exact ⟨h1, h2⟩
  | cons p rest ih =>
    intro hrel hcont st h1 h2
    have h2' : countSub q.data st.body.data = 0 := h2
    have hstep := processOne_body_shape fs root limit st p
    have hnext : ((processOne .Xml fs root limit st p).body.data = []
          ∨ (processOne .Xml fs root limit st p).body.data.getLast? = some '\n')
        ∧ countS q (processOne .Xml fs root limit st p).body = 0 := by
      rcases hstep with he | he | ⟨content, hrd, he⟩
      · rw [he]; exact ⟨h1, h2⟩
      · rw [he]
        have hseg : countSub q.data (sizeSkipBody .Xml (relativeOf root p)
            ((fs.stat p).getD 0) limit).data = 0 :=
          sizeSkipBody_xml_count q hq _ (hrel p (List.mem_cons_self _ _)) _ _
        constructor
        · right
          rw [String.data_append]
          exact getLast_append_nl _ _ (sizeSkipBody_xml_nl _ _ _)
        · show countSub q.data ((st.body ++ _ : String)).data = 0
          rw [String.data_append]
          rw [countSub_append_nl q.data hnl _ _ h1]
          rw [h2', hseg]
      · rw [he]
        have hseg : countSub q.data (includedBody .Xml (relativeOf root p) content).data = 0 :=
          includedBody_xml_count q hq _ content (hrel p (List.mem_cons_self _ _))
            (hcont p (List.mem_cons_self _ _) content hrd)
        constructor
        · right
          rw [String.data_append]
          exact getLast_append_nl _ _ (includedBody_xml_nl _ _)
        · show countSub q.data ((st.body ++ _ : String)).data = 0
          rw [String.data_append]
          rw [countSub_append_nl q.data hnl _ _ h1]
          rw [h2', hseg]
    exact ih (fun x hx => hrel x (List.mem_cons_of_mem _ hx))
      (fun x hx => hcont x (List.mem_cons_of_mem _ hx)) _ hnext.1 hnext.2

theorem tree_overview_xml_nl (rel : List String) :
    (build_tree_overview rel .Xml).data = []
      ∨ (build_tree_overview rel .Xml).data.getLast? = some '\n' := by
  simp only [build_tree_overview]
  by_cases hre : rel.isEmpty = true
  · rw [if_pos hre]
    exact Or.inl rfl
  · rw [if_neg hre]
    right
    simp only [String.data_append]
    exact getLast_append_nl _ _ (by decide)

theorem xmlHeader_nl (meta : ProjectMetadata) (fc et : Nat) :
    (build_xml_header meta fc et).data = []
      ∨ (build_xml_header meta fc et).data.getLast? = some '\n' :=
  concatAll_nl _ (xmlHeaderPieces_nl meta fc et)

theorem append_nl_or (a b : List Char) (ha : a = [] ∨ a.getLast? = some '\n')
    (hb : b = [] ∨ b.getLast? = some '\n') :
    a ++ b = [] ∨ (a ++ b).getLast? = some '\n' := by
  rcases hb with rfl | hb
  · rw [List.append_nil]; exact ha
  · exact Or.inr (getLast_append_nl a b hb)

theorem countS_four_chunks (q : String) (hnl : ¬ '\n' ∈ q.data) (H T B F : String)
    (hH : H.data = [] ∨ H.data.getLast? = some '\n')
    (hT : T.data = [] ∨ T.data.getLast? = some '\n')
    (hB : B.data = [] ∨ B.data.getLast? = some '\n') :
    countS q (H ++ T ++ B ++ F) = countS q H + countS q T + countS q B + countS q F := by
  unfold countS
  simp only [String.data_append]
  rw [countSub_append_nl q.data hnl _ F.data (append_nl_or _ _ (append_nl_or _ _ hH hT) hB)]
  rw [countSub_append_nl q.data hnl _ B.data (append_nl_or _ _ hH hT)]
  rw [countSub_append_nl q.data hnl H.data T.data hH]

theorem xml_balance_chunks (q : String) (hq : XmlPat q) (hnl : ¬ '\n' ∈ q.data)
    (H T B F : String)
    (hH : H.data = [] ∨ H.data.getLast? = some '\n')
    (hT : T.data = [] ∨ T.data.getLast? = some '\n')
    (hB : B.data = [] ∨ B.data.getLast? = some '\n')
    (cH : countS q H = (if q = "<codepack>" then 1 else 0) + (if q = "<files>" then 1 else 0))
    (cT : countS q T = 0) (cB : countS q B = 0)
    (cF : countS q F = (if q = "</codepack>" then 1 else 0) + (if q = "</files>" then 1 else 0)) :
    countS q (H ++ T ++ B ++ F) = 1 := by
  rw [countS_four_chunks q hnl H T B F hH hT hB, cH, cT, cB, cF]
  rcases hq with rfl | rfl | rfl | rfl <;> decide

theorem treeInputPaths_no_lt (root : String) (paths : List String)
    (hrel : ∀ p ∈ paths, ∀ d ∈ (relativeOf root p).data, ¬ d = '<') :
    ∀ r ∈ treeInputPaths root paths, ∀ d ∈ r.data, ¬ d = '<' := by
  intro r hr
  unfold treeInputPaths at hr
  obtain ⟨p, hp, hmap⟩ := List.mem_filterMap.mp hr
  cases hst : stripRoot root p with
  | none =>
    rw [hst] at hmap
    exact absurd hmap (by simp)
  | some s =>
    rw [hst] at hmap
    have hr' : normSlash s = r := by simpa using hmap
    have hrel' := hrel p hp
    unfold relativeOf at hrel'
    rw [hst] at hrel'
    intro d hd
    rw [← hr'] at hd
    exact hrel' d hd

set_option maxHeartbeats 1000000 in
/-- **C8 (amended).** For XML format the packed content contains each of
the four structural tag strings `<codepack>`, `</codepack>`, `<files>`,
`</files>` at exactly one textual position, provided no relative path
contains `<` and no included file's text contains any of the four tag
strings.  (Without those provisos the claim is false: file text is
embedded verbatim inside CDATA, see the counterexample.) -/
theorem C8_amended (tok : String → Nat) (fs : FS) (paths : List String)
    (project_path project_type : String) (max_file_bytes : Option Nat)
    (hrel : ∀ p ∈ paths, ∀ d ∈ (relativeOf project_path p).data, ¬ d = '<')
    (hcont : ∀ p ∈ paths, ∀ c, fs.readToString p = some c →
        ∀ q, XmlPat q → countS q c = 0) :
    ∀ q, XmlPat q →
      countS q (build_pack_content_with_limit tok fs paths project_path project_type .Xml
        max_file_bytes).content = 1 := by
  intro q hq
  obtain ⟨⟨ps, hps⟩, hnl⟩ := xmlPat_shape q hq
  have hfold := foldBody_xml_count q hq fs project_path
    (max_file_bytes.getD DEFAULT_MAX_FILE_BYTES) paths hrel
    (fun p hp c hc => hcont p hp c hc q hq) ⟨"", 0, 0, []⟩ (Or.inl rfl) rfl
  simp only [build_pack_content_with_limit]
  refine xml_balance_chunks q hq hnl _ _ _ _ ?_ ?_ ?_ ?_ ?_ ?_ ?_
  · exact xmlHeader_nl _ _ _
  · exact tree_overview_xml_nl _
  · exact hfold.1
  · exact xmlHeader_count q hq _ _ _
  · exact tree_overview_xml_count q hq _ (treeInputPaths_no_lt project_path paths hrel)
  · exact hfold.2
  · exact footer_xml_count q hq

/-- **C8 (witness).** One small packed file under root `r`: the amended
theorem applies and gives exactly one `<codepack>` occurrence. -/
theorem C8_amended_witness :
    ((∀ p ∈ (["r/a.rs"] : List String), ∀ d ∈ (relativeOf "r" p).data, ¬ d = '<')
      ∧ (∀ p ∈ (["r/a.rs"] : List String), ∀ c, fsSmall.readToString p = some c →
          ∀ q, XmlPat q → countS q c = 0))
    ∧ countS "<codepack>" (build_pack_content_with_limit (fun _ => 0) fsSmall ["r/a.rs"]
        "r" "" .Xml none).content = 1 := by
  have hrel : ∀ p ∈ (["r/a.rs"] : List String), ∀ d ∈ (relativeOf "r" p).data, ¬ d = '<' := by
    decide
  have hcont : ∀ p ∈ (["r/a.rs"] : List String), ∀ c, fsSmall.readToString p = some c →
      ∀ q, XmlPat q → countS q c = 0 := by
    intro p hp c hc q hq
    have hp' : p = "r/a.rs" := by simpa using hp
    subst hp'
    have hc' : some "ok\n" = some c := hc
    have hc2 : c = "ok\n" := by
      cases hc'
      rfl
    subst hc2
    rcases hq with rfl | rfl | rfl | rfl <;> decide
  exact ⟨⟨hrel, hcont⟩,
    C8_amended (fun _ => 0) fsSmall ["r/a.rs"] "r" "" none hrel hcont "<codepack>" (Or.inl rfl)⟩

set_option maxRecDepth 200000 in
/-- **C8 (counterexample).** A file whose text is the literal string
`"<codepack>\n"` is embedded verbatim inside CDATA, so the XML content
contains the `<codepack>` tag string at two positions — the claimed
"exactly one `<codepack>` opening tag" fails on raw content. -/
theorem C8_counterexample :
    countS "<codepack>" (build_pack_content_with_limit (fun _ => 0) fsTag ["r/a.rs"]
        "r" "" .Xml none).content = 2 := by
  have hov : build_tree_overview (treeInputPaths "r" ["r/a.rs"]) .Xml
      = "<file_tree>\n<![CDATA[\na.rs\n]]>\n</file_tree>\n\n" := by
    have h1 : treeInputPaths "r" ["r/a.rs"] = ["a.rs"] := by decide
    rw [h1]
    simp [build_tree_overview, buildTreeN, insertPath, putChild, alistGet, TreeN.children,
      renderEntries, concatAll]
  show countS "<codepack>"
      (build_header (extract_metadata fsTag "r" "")
          (List.foldl (processOne .Xml fsTag "r" DEFAULT_MAX_FILE_BYTES) ⟨"", 0, 0, []⟩ ["r/a.rs"]).file_count
          ((fun _ => 0) (List.foldl (processOne .Xml fsTag "r" DEFAULT_MAX_FILE_BYTES) ⟨"", 0, 0, []⟩ ["r/a.rs"]).body) .Xml
        ++ build_tree_overview (treeInputPaths "r" ["r/a.rs"]) .Xml
        ++ (List.foldl (processOne .Xml fsTag "r" DEFAULT_MAX_FILE_BYTES) ⟨"", 0, 0, []⟩ ["r/a.rs"]).body
        ++ build_footer .Xml) = 2
  rw [hov]
  decide
